import Mathlib

/-!
Verification development for the `fluent_clust` streaming ball-model library.

The Rust source is shallowly embedded: `f64` arithmetic is modelled by exact
rationals (`ℚ`), except that ball radii (`sigma`) may be the IEEE value `+∞`
(the initial sentinel ball has `sigma = f64::INFINITY`), which is modelled by
the two-constructor type `Fx` below.  The shared mutable ball graph
(`Rc<RefCell<Node>>` vertices with `Weak` neighbor pointers, `src/graph.rs`) is
embedded arena-style: every vertex gets a stable numeric identity (`Node.id`,
the embedding of the `Rc` allocation), neighbor references are stored ids, and
a reference is live exactly when a node with that id is present in the graph
list.  Fallible streaming code (`src/streamer.rs`) is embedded with `Except`.
-/

/-- An `f64` value that is either finite (a rational) or `+∞`.  Only ball
radii (`sigma`) ever hold `+∞` in the source (`f64::INFINITY` in
`Algo::init`). -/
inductive Fx where
  | fin (q : ℚ)
  | inf
deriving DecidableEq

/-- `x + y` on radii (IEEE: `∞` absorbs). Used by `Algo::should_merge` for
`current.sigma + neighbor.sigma`. -/
def Fx.add : Fx → Fx → Fx
  | .fin a, .fin b => .fin (a + b)
  | _, _ => .inf

/-- `x * c` for a radius `x` and a finite factor `c` (IEEE: `∞ * c = ∞` for
the positive factors that occur: weights of live balls, `MERGE_THRESHOLD`). -/
def Fx.mulq : Fx → ℚ → Fx
  | .fin a, c => .fin (a * c)
  | .inf, _ => .inf

/-- `c * x` for a finite `c` and a radius `x` (IEEE: `c * ∞ = ∞` for the
positive `c` that occurs, `INTRA_THRESHOLD`). -/
def Fx.qmul (c : ℚ) : Fx → Fx
  | .fin a => .fin (c * a)
  | .inf => .inf

/-- `x + d` for a radius `x` and finite `d`. -/
def Fx.addq : Fx → ℚ → Fx
  | .fin a, d => .fin (a + d)
  | .inf, _ => .inf

/-- `d + x` for finite `d` and a radius `x`. -/
def Fx.qadd (d : ℚ) : Fx → Fx
  | .fin a => .fin (d + a)
  | .inf => .inf

/-- `x / c` for a radius `x` and a finite divisor `c` (IEEE: `∞ / c = ∞` for
the positive `c` that occurs). -/
def Fx.divq : Fx → ℚ → Fx
  | .fin a, c => .fin (a / c)
  | .inf, _ => .inf

/-- `d < x` for a finite `d` and a radius `x` (IEEE: every finite `d`
satisfies `d < ∞`). -/
def Fx.qlt (d : ℚ) : Fx → Bool
  | .fin a => decide (d < a)
  | .inf => true

/-- `d / x` for a finite `d` and a radius `x` (IEEE: `d / ∞ = 0` for the
finite non-negative `d` that occurs).  This is the normalization of
`Model::normalize` (`src/model.rs`): `space_dist(p1, p2.center) / p2.radius`. -/
def Fx.qdiv (d : ℚ) : Fx → ℚ
  | .fin a => d / a
  | .inf => 0

/-! ## `src/space.rs`: the reference Euclidean space over `Vec<f64>` -/

/-- `space::euclid_dist`: the SQUARED Euclidean distance (the source never
takes the square root here). -/
def euclid_dist (p1 p2 : List ℚ) : ℚ :=
  ((p1.zip p2).map (fun x => (x.1 - x.2) * (x.1 - x.2))).sum

/-- `space::real_combine`: coordinatewise weighted center
`(x1*w1 + x2*w2) / (w1 + w2)`. -/
def real_combine (p1 : List ℚ) (w1 : ℚ) (p2 : List ℚ) (w2 : ℚ) : List ℚ :=
  let w := w1 + w2
  (p1.zip p2).map (fun x => (x.1 * w1 + x.2 * w2) / w)

/-! ## `src/neighbors.rs`: one-pass two-nearest selection

`NeighborDist<Model, RefModel>` is a candidate paired with its distance; we
embed it as `α × ℚ`.  `Neighborhood` is the pair of optional nearest and
second-nearest. -/

/-- One conditional swap `if d1.1 > d2.1 { swap(d1, d2) }` as used (three
times) inside `neighbors::smallest` and (once) at the head of
`neighbors::fold_others_2`. -/
def sort2 {α : Type _} (d1 d2 : α × ℚ) : (α × ℚ) × (α × ℚ) :=
  if d2.2 < d1.2 then (d2, d1) else (d1, d2)

/-- `neighbors::smallest`: keep the two smallest of three candidate/distance
pairs (three conditional adjacent swaps, dropping the last slot). -/
def smallest {α : Type _} (d1 d2 d3 : α × ℚ) : (α × ℚ) × (α × ℚ) :=
  let s1 := sort2 d1 d2
  let s2 := sort2 s1.2 d3
  sort2 s1.1 s2.1

/-- `neighbors::fold_others_2`: at least two candidates exist; sort the first
two and fold `smallest` over the rest. -/
def fold_others_2 {α : Type _} (first second : α × ℚ) (others : List (α × ℚ)) :
    Option (α × ℚ) × Option (α × ℚ) :=
  let s := sort2 first second
  let r := others.foldl (fun p d => smallest p.1 p.2 d) (s.1, s.2)
  (some r.1, some r.2)

/-- `neighbors::fold_1`: at least one candidate exists. -/
def fold_1 {α : Type _} (first : α × ℚ) (others : List (α × ℚ)) :
    Option (α × ℚ) × Option (α × ℚ) :=
  match others with
  | [] => (some first, none)
  | d2 :: rest => fold_others_2 first d2 rest

/-- `neighbors::fold_0`: selection entry point over the candidate/distance
list. -/
def fold_0 {α : Type _} (l : List (α × ℚ)) : Option (α × ℚ) × Option (α × ℚ) :=
  match l with
  | [] => (none, none)
  | d1 :: rest => fold_1 d1 rest

/-- `GetNeighborhood::get_neighborhood`: map every candidate to its distance
from the target and run the one-pass selection. -/
def GetNeighborhood.get_neighborhood {α P : Type _} (l : List α) (point : P)
    (dist : P → α → ℚ) : Option (α × ℚ) × Option (α × ℚ) :=
  fold_0 (l.map (fun p => (p, dist point p)))

/-! ## `src/model.rs` and `src/graph.rs`: balls and the ball graph

The ball record is named `NormalData {mu, sigma, weight}` in
`src/algorithm.rs`'s draft and `Ball {center, radius, weight}` in
`src/model.rs`'s draft; both denote the same value record
(center, squared radius, mass). -/

/-- The ball value record (`NormalData` / `Ball`): center, squared radius
(possibly `+∞`), mass. -/
structure NormalData (Point : Type _) where
  mu : Point
  sigma : Fx
  weight : ℚ
deriving DecidableEq

/-- A graph vertex (`graph::Vertex`, arena-embedded): the `id` stands for the
`Rc` allocation identity, `neighbors` stores the ids aimed at by the `Weak`
neighbor pointers.  A neighbor id is live iff a node with that id is in the
graph. -/
structure Node (Point : Type _) where
  id : ℕ
  data : NormalData Point
  neighbors : List ℕ
deriving DecidableEq

/-- `impl PartialEq for Vertex` (`src/graph.rs` lines 20-24): delegates
through `Rc`/`RefCell` to `impl PartialEq for Node` (lines 37-41), which
compares `self.data == other.data` — ball VALUE equality, never allocation
identity. -/
def Vertex.peq {Point : Type _} [DecidableEq Point] (a b : Node Point) : Bool :=
  decide (a.data = b.data)

/-- The model (`model::Model`): the graph in insertion order plus the next
fresh vertex identity (the embedding of `Rc` allocation). -/
structure Model (Point : Type _) where
  graph : List (Node Point)
  nextId : ℕ
deriving DecidableEq

/-- A model with no components (`Model::new`). -/
def Model.empty {Point : Type _} : Model Point := ⟨[], 0⟩

/-- `Model::normalize`: divide the space distance to the ball's center by the
ball's (possibly infinite) radius. -/
def Model.normalize {Point : Type _} (sd : Point → Point → ℚ) (p : Point)
    (b : NormalData Point) : ℚ :=
  Fx.qdiv (sd p b.mu) b.sigma

/-- `Model::get_neighborhood`: the up-to-two nearest live vertices to `point`
under the normalized distance, in ascending order. -/
def Model.get_neighborhood {Point : Type _} (m : Model Point)
    (sd : Point → Point → ℚ) (p : Point) : List (Node Point) :=
  match GetNeighborhood.get_neighborhood m.graph p
      (fun q n => Model.normalize sd q n.data) with
  | (some n1, some n2) => [n1.1, n2.1]
  | (some n1, none) => [n1.1]
  | (none, _) => []

/-- `Model::add_ball` / `Model::add_component`: append a fresh vertex holding
`d` with the given initial neighbor references, returning the vertex. -/
def Model.add_component {Point : Type _} (m : Model Point) (d : NormalData Point)
    (nbrs : List ℕ) : Node Point × Model Point :=
  let v : Node Point := ⟨m.nextId, d, nbrs⟩
  (v, ⟨m.graph ++ [v], m.nextId + 1⟩)

/-- `Vertex::deref_data_mut` followed by a write: replace the ball data of the
vertex with identity `i` (shared mutation through the `Rc`). -/
def Model.setData {Point : Type _} (m : Model Point) (i : ℕ)
    (d : NormalData Point) : Model Point :=
  { m with graph := m.graph.map (fun n => if n.id = i then { n with data := d } else n) }

/-- `Vertex::set_neighbors`: replace the neighbor reference list of the vertex
with identity `i`. -/
def Model.set_neighbors {Point : Type _} (m : Model Point) (i : ℕ)
    (l : List ℕ) : Model Point :=
  { m with graph := m.graph.map (fun n => if n.id = i then { n with neighbors := l } else n) }

/-- `Vertex::iter_neighbors`: the still-live targets of the vertex's neighbor
references, in list order, silently skipping dropped (dangling) ones. -/
def Model.iter_neighbors {Point : Type _} (m : Model Point) (v : Node Point) :
    List (Node Point) :=
  v.neighbors.filterMap (fun i => m.graph.find? (fun n => n.id = i))

/-- The sum of the masses of the live balls. -/
def totalMass {Point : Type _} (m : Model Point) : ℚ :=
  (m.graph.map (fun n => n.data.weight)).sum

/-- Modelled from the spec: `Model::iter_components_mut`, the in-place
mutate-and-retain traversal used by `Algo::decay`, is part of the `NormalData`
model draft that is not under `src/` (only its caller is).  Per §4.3
(`retain`): apply the closure to every ball in insertion order and keep
exactly the balls for which it returns `true`, invalidating references to
dropped balls (arena embedding: dropped nodes simply leave the graph list). -/
def Model.iter_components_mut {Point : Type _} (m : Model Point)
    (f : NormalData Point → NormalData Point × Bool) : Model Point :=
  { m with graph := m.graph.filterMap (fun n =>
      let r := f n.data
      if r.2 then some { n with data := r.1 } else none) }

/-- The ball list carried by a serialized model.  Modelled from the spec: the
JSON wire form (`serialize_ball` in `src/streamer.rs` emits center, the square
root of the stored radius, and weight; §6 fixes this format and says the
serialized form used for `load` is the same JSON) encodes each ball
faithfully, and the decode step that feeds `Model::load` (absent from `src/`)
inverts it, so at the data level serialization is the list of ball records in
insertion order. -/
def serialize_model {Point : Type _} (m : Model Point) : List (NormalData Point) :=
  m.graph.map (fun n => n.data)

/-- The candidate set `model.graph.iter().filter(|v| v.ne(&vertex))` used by
`Model::load`: every ball except those VALUE-equal to `vertex` (the `ne` is
`Vertex`'s `PartialEq`, which compares ball data). -/
def load_candidates {Point : Type _} [DecidableEq Point] (m : Model Point)
    (v : Node Point) : List (Node Point) :=
  m.graph.filter (fun w => !(Vertex.peq w v))

/-- Convert a `Neighborhood` selection result to the neighbor reference list
installed by `Model::load` (`Two`/`One`/`None` become two, one or zero
references). -/
def neighborhood_ids {Point : Type _} :
    Option (Node Point × ℚ) × Option (Node Point × ℚ) → List ℕ
  | (some n1, some n2) => [n1.1.id, n2.1.id]
  | (some n1, none) => [n1.1.id]
  | (none, _) => []

/-- `Model::load` (`src/model.rs` lines 81-114): add every ball with no
neighbors, then give each vertex the up-to-two nearest (by normalized
distance) among the balls value-distinct from it.  The source sets the lists
inside a loop over the graph, but the selection reads only ball data, never
neighbor lists, so every vertex's list is independent of the order and the
loop is a map. -/
def Model.load {Point : Type _} [DecidableEq Point] (sd : Point → Point → ℚ)
    (data : List (NormalData Point)) : Model Point :=
  let m0 : Model Point := data.foldl (fun m b => (m.add_component b []).2) Model.empty
  { m0 with graph := m0.graph.map (fun v =>
      let nb := GetNeighborhood.get_neighborhood (load_candidates m0 v) v.data.mu
        (fun p w => Model.normalize sd p w.data)
      { v with neighbors := neighborhood_ids nb }) }

/-! ## `src/algorithm.rs`: the incremental fit algorithm -/

/-- `EXTRA_THRESHOLD` (`src/algorithm.rs` line 5). -/
def EXTRA_THRESHOLD : ℚ := 16

/-- `INTRA_THRESHOLD` (`src/algorithm.rs` line 6). -/
def INTRA_THRESHOLD : ℚ := 9

/-- `MERGE_THRESHOLD` (`src/algorithm.rs` line 7). -/
def MERGE_THRESHOLD : ℚ := 1

/-- `DECAY_FACTOR` (`src/algorithm.rs` line 8). -/
def DECAY_FACTOR : ℚ := 999 / 1000

/-- `DECAY_THRESHOLD` (`src/algorithm.rs` line 9). -/
def DECAY_THRESHOLD : ℚ := 1 / 1000000

/-- `MAX_NEIGHBORS` (`src/algorithm.rs` line 10). -/
def MAX_NEIGHBORS : ℕ := 2

/-- `algorithm::Algo`: the caller-supplied raw space distance and weighted
combine. -/
structure Algo (Point : Type _) where
  dist : Point → Point → ℚ
  combine : Point → ℚ → Point → ℚ → Point

/-- `Algo::init`: first-ever point; one component with infinite variance and
zero weight, no neighbors, no decay. -/
def Algo.init {Point : Type _} (m : Model Point) (p : Point) :
    Node Point × Model Point :=
  m.add_component ⟨p, Fx.inf, 0⟩ []

/-- `Algo::update_mu`: `combine(component.mu, component.weight, point, 1)`. -/
def Algo.update_mu {Point : Type _} (algo : Algo Point) (c : NormalData Point)
    (p : Point) : Point :=
  algo.combine c.mu c.weight p 1

/-- `Algo::update_sigma`: `weight == 0 ? dist : (sigma*weight + dist) / (weight + 1)`. -/
def update_sigma {Point : Type _} (c : NormalData Point) (d : ℚ) : Fx :=
  if c.weight = 0 then Fx.fin d
  else ((c.sigma.mulq c.weight).addq d).divq (c.weight + 1)

/-- `Algo::update_component`: absorb `point` into the component (the source
assigns `mu`, then `sigma` from the OLD `sigma`/`weight`, then increments
`weight`). -/
def Algo.update_component {Point : Type _} (algo : Algo Point)
    (c : NormalData Point) (p : Point) (d : ℚ) : NormalData Point :=
  { mu := algo.update_mu c p, sigma := update_sigma c d, weight := c.weight + 1 }

/-- `Algo::split_component`: new component for a far point:
`sigma = d / EXTRA_THRESHOLD`, `mu = combine(neighbor.mu, -1, point, 5)`,
weight 1. -/
def Algo.split_component {Point : Type _} (algo : Algo Point) (p : Point)
    (d : ℚ) (neighbor : NormalData Point) : NormalData Point :=
  { mu := algo.combine neighbor.mu (-1) p 5
    sigma := Fx.fin (d / EXTRA_THRESHOLD)
    weight := 1 }

/-- `Algo::update`: absorb into the closest component when
`d < INTRA_THRESHOLD * closest.sigma`, otherwise split off a new component
whose initial neighbors are the whole neighborhood.  Returns the updated
model, the vertex touched (its identity) and the optional
`maybe_neighbor` (its identity). -/
def Algo.update {Point : Type _} (algo : Algo Point) (m : Model Point)
    (vertex : Node Point) (p : Point) (nb : List (Node Point)) :
    Model Point × ℕ × Option ℕ :=
  let closest := vertex.data
  let d := algo.dist closest.mu p
  if Fx.qlt d (Fx.qmul INTRA_THRESHOLD closest.sigma) then
    (m.setData vertex.id (algo.update_component closest p d), vertex.id,
      (nb.get? 1).map (fun v => v.id))
  else
    let vm := m.add_component (algo.split_component p d closest) (nb.map (fun v => v.id))
    (vm.2, vm.1.id, some vm.1.id)

/-- The inner loop of `Algo::rebuild_neighborhood`, iterating
`i = 0 .. MAX_NEIGHBORS-1` over the (evolving) neighbor buffer: `fuel` is the
number of loop iterations left, `pre` the entries already passed over.  The
source's three exits are, in order: index reached the end (push candidate),
entry VALUE-equal to candidate (keep as is), entry farther than candidate
(insert candidate here). -/
def rebuild_aux {Point : Type _} [DecidableEq Point] (algo : Algo Point)
    (cp : Point) (cd : ℚ) (cand : Node Point) :
    ℕ → List (Node Point) → List (Node Point) → List (Node Point)
  | 0, pre, rest => pre ++ rest
  | _ + 1, pre, [] => pre ++ [cand]
  | fuel + 1, pre, h :: t =>
    if Vertex.peq h cand then pre ++ h :: t
    else if cd < algo.dist h.data.mu cp then pre ++ cand :: h :: t
    else rebuild_aux algo cp cd cand fuel (pre ++ [h]) t

/-- `Algo::rebuild_neighborhood`: insert `cand` into the vertex's copied
neighbor buffer by raw distance to the vertex's (current) center, keeping the
buffer unchanged if `cand` is already (value-)present among the first
`MAX_NEIGHBORS` entries. -/
def Algo.rebuild_neighborhood {Point : Type _} [DecidableEq Point]
    (algo : Algo Point) (cp : Point) (nbh : List (Node Point))
    (cand : Node Point) : List (Node Point) :=
  rebuild_aux algo cp (algo.dist cand.data.mu cp) cand MAX_NEIGHBORS [] nbh

/-- `Algo::should_merge`: `d = dist(first.mu, second.mu)`; merge iff
`d < (first.sigma + second.sigma) * MERGE_THRESHOLD`. -/
def Algo.should_merge {Point : Type _} (algo : Algo Point)
    (first second : Node Point) : Bool × ℚ :=
  let d := algo.dist first.data.mu second.data.mu
  (Fx.qlt d ((first.data.sigma.add second.data.sigma).mulq MERGE_THRESHOLD), d)

/-- `Algo::merge_components`: fold the neighbor into the vertex — weighted
center, radius `d + (σ₁w₁ + σ₂w₂)/(w₁ + w₂)`, weight sum — and zero the
neighbor's weight (marking it for pruning). -/
def Algo.merge_components {Point : Type _} (algo : Algo Point) (m : Model Point)
    (vertex neighbor : Node Point) (d : ℚ) : Model Point :=
  let cur := vertex.data
  let nbr := neighbor.data
  let merged : NormalData Point :=
    { mu := algo.combine cur.mu cur.weight nbr.mu nbr.weight
      sigma := Fx.qadd d
        (((cur.sigma.mulq cur.weight).add (nbr.sigma.mulq nbr.weight)).divq
          (cur.weight + nbr.weight))
      weight := cur.weight + nbr.weight }
  (m.setData vertex.id merged).setData neighbor.id { nbr with weight := 0 }

/-- `Algo::rebuild_merge`: merge the vertex with the head of its rebuilt
neighbor buffer when close enough and drop that head from the buffer.  The
buffer is never empty when the source runs this (`rebuild_neighborhood`
always yields a non-empty list); on `[]` the embedding returns unchanged. -/
def Algo.rebuild_merge {Point : Type _} (algo : Algo Point) (m : Model Point)
    (vertex : Node Point) (nbh : List (Node Point)) :
    Model Point × List (Node Point) :=
  match nbh with
  | [] => (m, [])
  | h :: t =>
    let sm := algo.should_merge vertex h
    if sm.1 then (algo.merge_components m vertex h sm.2, t) else (m, h :: t)

/-- `Algo::update_local_graph`: copy the vertex's live neighbors, refine with
the candidate, run the merge step, truncate to `MAX_NEIGHBORS` (pop the last
element) and commit the list.  The source receives the two vertices as `Rc`
handles; the arena embedding looks their current nodes up by identity (both
are always live when the source calls this). -/
def Algo.update_local_graph {Point : Type _} [DecidableEq Point]
    (algo : Algo Point) (m : Model Point) (vId cId : ℕ) : Model Point :=
  match m.graph.find? (fun n => n.id = vId), m.graph.find? (fun n => n.id = cId) with
  | some v, some c =>
    let nbh := m.iter_neighbors v
    let nbh1 := algo.rebuild_neighborhood v.data.mu nbh c
    let mn := algo.rebuild_merge m v nbh1
    let nbh2 := if MAX_NEIGHBORS < mn.2.length then mn.2.dropLast else mn.2
    mn.1.set_neighbors vId (nbh2.map (fun n => n.id))
  | _, _ => m

/-- `Algo::decay`: divide the touched vertex's weight by `DECAY_FACTOR`, then
multiply every component's weight by `DECAY_FACTOR` and retain exactly those
with `weight > DECAY_THRESHOLD`. -/
def Algo.decay {Point : Type _} (m : Model Point) (vId : ℕ) : Model Point :=
  let m1 : Model Point :=
    { m with graph := m.graph.map (fun n =>
        if n.id = vId then
          { n with data := { n.data with weight := n.data.weight / DECAY_FACTOR } }
        else n) }
  m1.iter_components_mut (fun v =>
    let v1 := { v with weight := v.weight * DECAY_FACTOR }
    (v1, decide (DECAY_THRESHOLD < v1.weight)))

/-- The non-empty branch of `Algo::fit` up to (excluding) the decay pass:
`update`, then `update_local_graph` when a `maybe_neighbor` exists.  Returns
the model and the vertex identity handed to `decay`. -/
def Algo.preDecay {Point : Type _} [DecidableEq Point] (algo : Algo Point)
    (m : Model Point) (p : Point) (primary : Node Point)
    (rest : List (Node Point)) : Model Point × ℕ :=
  let u := algo.update m primary p (primary :: rest)
  match u.2.2 with
  | some c => (algo.update_local_graph u.1 primary.id c, u.2.1)
  | none => (u.1, u.2.1)

/-- `Algo::fit`: query the neighborhood; `init` on an empty model (no decay),
otherwise update/split against the closest component, refine the local graph,
and decay/prune. -/
def Algo.fit {Point : Type _} [DecidableEq Point] (algo : Algo Point)
    (sd : Point → Point → ℚ) (m : Model Point) (p : Point) : Model Point :=
  match m.get_neighborhood sd p with
  | [] => (Algo.init m p).2
  | primary :: rest =>
    let pd := algo.preDecay m p primary rest
    Algo.decay pd.1 pd.2

/-! ## `src/streamer.rs`: the pull loop -/

/-- The observable outcome of `Streamer::run`: final model, final sink state,
the outputs accepted by the sink in order, the inputs never consumed, and the
error that stopped the loop (`none` = clean end of input, `Ok(())`). -/
structure RunOut (Point E S : Type _) where
  model : Model Point
  sink : S
  emitted : List String
  remaining : List (Except E String)
  err : Option E

/-- `Streamer::run`: pull one input, `?` it, parse it (`?`), fit, serialize
(`toStr`, the infallible `serde_json::to_string` of the ball list), push to
the sink (`?`), repeat until the input iterator ends.  The sink is the
caller's `FnMut` write closure, embedded as a state-passing function. -/
def Streamer.run {Point E S : Type _} [DecidableEq Point] (algo : Algo Point)
    (sd : Point → Point → ℚ) (toStr : Model Point → String)
    (parse : String → Except E Point) (write : S → String → Except E S) :
    List (Except E String) → Model Point → S → RunOut Point E S
  | [], m, s => ⟨m, s, [], [], none⟩
  | input :: rest, m, s =>
    match input with
    | .error e => ⟨m, s, [], rest, some e⟩
    | .ok str =>
      match parse str with
      | .error e => ⟨m, s, [], rest, some e⟩
      | .ok p =>
        let m1 := algo.fit sd m p
        let out := toStr m1
        match write s out with
        | .error e => ⟨m1, s, [], rest, some e⟩
        | .ok s1 =>
          let r := Streamer.run algo sd toStr parse write rest m1 s1
          ⟨r.model, r.sink, out :: r.emitted, r.remaining, r.err⟩

/-! ## Specification-side definitions

`kLt` spells out what "up to two candidates with the smallest distances,
ordered ascending by distance, ties retained in iteration order" means: the
strict lexicographic order on (distance, position-in-iteration). -/

/-- Strict lexicographic order on (distance, iteration position): smaller
distance wins, and at equal distance the candidate seen first wins. -/
abbrev kLt (x y : ℚ × ℕ) : Prop :=
  x.1 < y.1 ∨ (x.1 = y.1 ∧ x.2 < y.2)

/-- The spec's "neighbor list equals the up-to-two nearest balls among
`cands`": written from the claim's words.  Zero candidates give no neighbors,
one gives that one, and otherwise the list holds the positions `i` then `j`
where `i` is the (distance, position)-lexicographic minimum of the candidates
and `j` the minimum of the rest — the stable two-nearest. -/
def TwoNearestOf {Point : Type _} (sd : Point → Point → ℚ)
    (cands : List (Node Point)) (v : Node Point) : Prop :=
  match cands with
  | [] => v.neighbors = []
  | [w] => v.neighbors = [w.id]
  | _ =>
    ∃ i j : Fin cands.length, i ≠ j ∧
      v.neighbors = [(cands.get i).id, (cands.get j).id] ∧
      (∀ k : Fin cands.length, k ≠ i →
        kLt (Model.normalize sd v.data.mu (cands.get i).data, i.1)
          (Model.normalize sd v.data.mu (cands.get k).data, k.1)) ∧
      (∀ k : Fin cands.length, k ≠ i → k ≠ j →
        kLt (Model.normalize sd v.data.mu (cands.get j).data, j.1)
          (Model.normalize sd v.data.mu (cands.get k).data, k.1))

/-- Claim C5 read literally: after `load ∘ serialize`, the balls are preserved
in order and every vertex's neighbor list is the two-nearest among the OTHER
balls of the model — "other" meaning every ball except the vertex's own
occurrence (identity reading: the candidate set drops exactly the vertex
itself). -/
def load_roundtrip_identity_spec {Point : Type _} [DecidableEq Point]
    (sd : Point → Point → ℚ) (m : Model Point) : Prop :=
  let lm := Model.load sd (serialize_model m)
  lm.graph.map (fun n => n.data) = m.graph.map (fun n => n.data) ∧
  ∀ k : Fin lm.graph.length,
    TwoNearestOf sd (lm.graph.eraseIdx k.1) (lm.graph.get k)

/-! ## Concrete fixtures for witnesses and counterexamples -/

/-- The reference Euclidean algorithm (`Algo::new(space::euclid_dist,
space::real_combine)`). -/
def euclidAlgo : Algo (List ℚ) := ⟨euclid_dist, real_combine⟩

/-- A one-ball model: ball at the origin, squared radius 10, mass 1. -/
def oneBallModel : Model (List ℚ) := ⟨[⟨0, ⟨[0, 0], Fx.fin 10, 1⟩, []⟩], 1⟩

/-- A two-ball model used by the split and merge witnesses. -/
def twoBallModel : Model (List ℚ) :=
  ⟨[⟨0, ⟨[0, 0], Fx.fin 1, 1⟩, [1]⟩, ⟨1, ⟨[10, 0], Fx.fin 1, 2⟩, [0]⟩], 2⟩

/-- A model holding two VALUE-equal balls (ids 0 and 1) plus a distinct third:
the duplicate-ball input on which claim C5's identity reading fails. -/
def dupBallModel : Model (List ℚ) :=
  ⟨[⟨0, ⟨[0], Fx.fin 1, 1⟩, []⟩, ⟨1, ⟨[0], Fx.fin 1, 1⟩, []⟩, ⟨2, ⟨[3], Fx.fin 1, 1⟩, []⟩], 3⟩


/-- The bookkeeping invariant of the arena embedding: masses are non-negative,
vertex identities are pairwise distinct, and every identity is below the
allocator counter.  It holds for the empty model and is preserved by `fit`. -/
def ModelInv {Point : Type _} (m : Model Point) : Prop :=
  (∀ n ∈ m.graph, 0 ≤ n.data.weight)
  ∧ (m.graph.map (fun n => n.id)).Nodup
  ∧ ∀ n ∈ m.graph, n.id < m.nextId

/-! ## Claim theorems -/

/-- C8 counterexample: the constants do NOT carry the values the spec states
(`EXTRA_THRESHOLD` is 16, not 25, and similarly for `INTRA_THRESHOLD`,
`DECAY_FACTOR` and `DECAY_THRESHOLD`). -/
theorem constants_spec_values_false :
    ¬ (EXTRA_THRESHOLD = 25 ∧ INTRA_THRESHOLD = 16 ∧ MERGE_THRESHOLD = 1 ∧
       DECAY_FACTOR = 95 / 100 ∧ DECAY_THRESHOLD = 1 / 100 ∧ MAX_NEIGHBORS = 2) := by
  intro h
  have h1 := h.1
  norm_num [EXTRA_THRESHOLD] at h1

/-- C8 (amended): the tunable constants carry the source's values
`EXTRA_THRESHOLD = 16`, `INTRA_THRESHOLD = 9`, `MERGE_THRESHOLD = 1`,
`DECAY_FACTOR = 0.999`, `DECAY_THRESHOLD = 1e-6`, `MAX_NEIGHBORS = 2`
(`src/algorithm.rs` lines 5-10). -/
theorem constants_source_values :
    EXTRA_THRESHOLD = 16 ∧ INTRA_THRESHOLD = 9 ∧ MERGE_THRESHOLD = 1 ∧
    DECAY_FACTOR = 999 / 1000 ∧ DECAY_THRESHOLD = 1 / 1000000 ∧ MAX_NEIGHBORS = 2 :=
  ⟨rfl, rfl, rfl, rfl, rfl, rfl⟩

/-- C10: `Vertex` equality compares the stored ball data by value, never the
node identity: two nodes with different identities but equal balls compare
equal.  Consequently `Algo::rebuild_neighborhood`'s "candidate is already a
known neighbor" check stops at any value-equal head, and `Model::load`'s
candidate set excludes every ball value-equal to the vertex, not only the
vertex's own node. -/
theorem vertex_equality_is_by_value {Point : Type _} [DecidableEq Point] :
    (∀ (i j : ℕ) (b c : NormalData Point) (ni nj : List ℕ),
      Vertex.peq ⟨i, b, ni⟩ ⟨j, c, nj⟩ = true ↔ b = c)
    ∧ (∀ (algo : Algo Point) (cp : Point) (h : Node Point) (t : List (Node Point))
        (cand : Node Point), Vertex.peq h cand = true →
        algo.rebuild_neighborhood cp (h :: t) cand = h :: t)
    ∧ (∀ (m : Model Point) (v w : Node Point),
        w ∈ load_candidates m v ↔ w ∈ m.graph ∧ w.data ≠ v.data) := by
  refine ⟨?_, ?_, ?_⟩
  · intro i j b c ni nj
    simp [Vertex.peq]
  · intro algo cp h t cand hpeq
    simp [Algo.rebuild_neighborhood, MAX_NEIGHBORS, rebuild_aux, hpeq]
  · intro m v w
    simp [load_candidates, Vertex.peq, List.mem_filter]

/-- C10 witness: two distinct nodes (ids 0 and 1) holding the same ball
compare equal, the refinement check treats the value-equal head as already
known, and the duplicate model's candidate sets exclude value-equal balls. -/
theorem vertex_equality_is_by_value_witness :
    (Vertex.peq (⟨0, ⟨[0], Fx.fin 1, 1⟩, []⟩ : Node (List ℚ)) ⟨1, ⟨[0], Fx.fin 1, 1⟩, [5]⟩
      = true)
    ∧ euclidAlgo.rebuild_neighborhood [7]
        [⟨0, ⟨[0], Fx.fin 1, 1⟩, []⟩] ⟨1, ⟨[0], Fx.fin 1, 1⟩, [5]⟩
      = [⟨0, ⟨[0], Fx.fin 1, 1⟩, []⟩]
    ∧ ((⟨1, ⟨[0], Fx.fin 1, 1⟩, []⟩ : Node (List ℚ)) ∈
        load_candidates dupBallModel ⟨0, ⟨[0], Fx.fin 1, 1⟩, []⟩ ↔ False) := by
  have h := @vertex_equality_is_by_value (List ℚ) inferInstance
  have hpeq : Vertex.peq (⟨0, ⟨[0], Fx.fin 1, 1⟩, []⟩ : Node (List ℚ))
      ⟨1, ⟨[0], Fx.fin 1, 1⟩, [5]⟩ = true :=
    (h.1 0 1 ⟨[0], Fx.fin 1, 1⟩ ⟨[0], Fx.fin 1, 1⟩ [] [5]).mpr rfl
  refine ⟨hpeq, h.2.1 euclidAlgo [7] _ [] _ hpeq, ?_⟩
  rw [h.2.2 dupBallModel ⟨0, ⟨[0], Fx.fin 1, 1⟩, []⟩ ⟨1, ⟨[0], Fx.fin 1, 1⟩, []⟩]
  simp [dupBallModel]

/-- C1: fitting a point into a non-empty model whose nearest (normalized)
ball `primary` satisfies the absorb gate
`d < INTRA_THRESHOLD * primary.sigma` updates `primary` in place —
`mu ← combine(mu, weight, point, 1)`,
`sigma ← weight = 0 ? d : (sigma*weight + d)/(weight + 1)`,
`weight ← weight + 1` — and adds no new ball in this step. -/
theorem absorb_updates_primary_in_place {Point : Type _} [DecidableEq Point]
    (algo : Algo Point) (sd : Point → Point → ℚ) (m : Model Point) (p : Point)
    (primary : Node Point) (rest : List (Node Point))
    (_hnb : m.get_neighborhood sd p = primary :: rest)
    (habs : Fx.qlt (algo.dist primary.data.mu p)
      (Fx.qmul INTRA_THRESHOLD primary.data.sigma) = true) :
    (algo.update m primary p (primary :: rest)).1.graph
      = m.graph.map (fun n =>
          if n.id = primary.id then
            { n with data :=
                { mu := algo.combine primary.data.mu primary.data.weight p 1
                  sigma :=
                    if primary.data.weight = 0 then
                      Fx.fin (algo.dist primary.data.mu p)
                    else
                      ((primary.data.sigma.mulq primary.data.weight).addq
                        (algo.dist primary.data.mu p)).divq (primary.data.weight + 1)
                  weight := primary.data.weight + 1 } }
          else n)
    ∧ (algo.update m primary p (primary :: rest)).1.nextId = m.nextId
    ∧ (algo.update m primary p (primary :: rest)).2.1 = primary.id := by
  simp only [Algo.update, habs, if_true, Model.setData, Algo.update_component,
    Algo.update_mu, update_sigma]
  exact ⟨trivial, trivial, trivial⟩

/-- C1 witness: absorbing `[1, 1]` into the one-ball model (squared distance
`d = 2 < 9 * 10`): the single ball becomes
`{mu = [1/2, 1/2], sigma = (10*1 + 2)/2 = 6, weight = 2}` and no ball is
added. -/
theorem absorb_updates_primary_in_place_witness :
    (euclidAlgo.update oneBallModel ⟨0, ⟨[0, 0], Fx.fin 10, 1⟩, []⟩ [1, 1]
        [⟨0, ⟨[0, 0], Fx.fin 10, 1⟩, []⟩]).1.graph
      = [⟨0, ⟨[1/2, 1/2], Fx.fin 6, 2⟩, []⟩]
    ∧ (euclidAlgo.update oneBallModel ⟨0, ⟨[0, 0], Fx.fin 10, 1⟩, []⟩ [1, 1]
        [⟨0, ⟨[0, 0], Fx.fin 10, 1⟩, []⟩]).1.nextId = 1 := by
  have h := absorb_updates_primary_in_place euclidAlgo euclid_dist oneBallModel [1, 1]
    ⟨0, ⟨[0, 0], Fx.fin 10, 1⟩, []⟩ []
    (by norm_num [Model.get_neighborhood, GetNeighborhood.get_neighborhood, oneBallModel,
      fold_0, fold_1, Model.normalize, Fx.qdiv, euclid_dist])
    (by norm_num [Fx.qlt, Fx.qmul, INTRA_THRESHOLD, euclid_dist, euclidAlgo])
  refine ⟨?_, h.2.1⟩
  rw [h.1]
  norm_num [oneBallModel, euclidAlgo, euclid_dist, Fx.mulq, Fx.addq, Fx.divq, real_combine]

/-- C2: fitting a point whose raw distance `d` to the nearest ball fails the
absorb gate appends exactly one new ball with
`mu = combine(primary.mu, -1, point, 5)`, `sigma = d / EXTRA_THRESHOLD`,
`weight = 1`, whose initial neighbor list is exactly the (up-to-two-element)
neighborhood returned by the query for the point. -/
theorem split_appends_one_ball {Point : Type _} [DecidableEq Point]
    (algo : Algo Point) (sd : Point → Point → ℚ) (m : Model Point) (p : Point)
    (primary : Node Point) (rest : List (Node Point))
    (_hnb : m.get_neighborhood sd p = primary :: rest)
    (hfar : Fx.qlt (algo.dist primary.data.mu p)
      (Fx.qmul INTRA_THRESHOLD primary.data.sigma) = false) :
    (algo.update m primary p (primary :: rest)).1.graph
      = m.graph ++ [⟨m.nextId,
          ⟨algo.combine primary.data.mu (-1) p 5,
           Fx.fin (algo.dist primary.data.mu p / EXTRA_THRESHOLD), 1⟩,
          (primary :: rest).map (fun n => n.id)⟩]
    ∧ (algo.update m primary p (primary :: rest)).1.nextId = m.nextId + 1
    ∧ (algo.update m primary p (primary :: rest)).2.1 = m.nextId := by
  simp only [Algo.update, hfar, Bool.false_eq_true, if_false, Model.add_component,
    Algo.split_component]
  exact ⟨trivial, trivial, trivial⟩

/-- C2 witness: the point `[10, 10]` is too far from the one-ball model
(`d = 200 ≥ 9 * 10`), so a fresh ball
`{mu = [12.5, 12.5], sigma = 200/16, weight = 1}` is appended whose neighbor
list is the queried neighborhood `[0]`. -/
theorem split_appends_one_ball_witness :
    (euclidAlgo.update oneBallModel ⟨0, ⟨[0, 0], Fx.fin 10, 1⟩, []⟩ [10, 10]
        [⟨0, ⟨[0, 0], Fx.fin 10, 1⟩, []⟩]).1.graph
      = [⟨0, ⟨[0, 0], Fx.fin 10, 1⟩, []⟩,
         ⟨1, ⟨[25/2, 25/2], Fx.fin (25/2), 1⟩, [0]⟩] := by
  have h := split_appends_one_ball euclidAlgo euclid_dist oneBallModel [10, 10]
    ⟨0, ⟨[0, 0], Fx.fin 10, 1⟩, []⟩ []
    (by norm_num [Model.get_neighborhood, GetNeighborhood.get_neighborhood, oneBallModel,
      fold_0, fold_1, Model.normalize, Fx.qdiv, euclid_dist])
    (by norm_num [Fx.qlt, Fx.qmul, INTRA_THRESHOLD, euclid_dist, euclidAlgo])
  rw [h.1]
  norm_num [oneBallModel, euclidAlgo, euclid_dist, real_combine, EXTRA_THRESHOLD]

/-- A `filterMap` whose function conditionally keeps a rewritten element is a
`map` followed by a `filter`. -/
theorem filterMap_eq_filter_map_of_pointwise {α : Type _} (l : List α)
    (F : α → Option α) (G : α → α) (p : α → Bool)
    (h : ∀ a, F a = if p (G a) then some (G a) else none) :
    l.filterMap F = (l.map G).filter p := by
  induction l with
  | nil => rfl
  | cons a t ih =>
    rw [List.filterMap_cons, h a, List.map_cons, List.filter_cons]
    by_cases hp : p (G a) = true
    · simp [hp, ih]
    · simp [hp, ih]

/-- The decay pass in closed form: scale every mass but the vertex's by
`DECAY_FACTOR` (the vertex's is divided first, so it is unchanged over exact
rationals) and keep exactly the balls above `DECAY_THRESHOLD`. -/
theorem decay_graph_eq {Point : Type _} (m : Model Point) (vId : ℕ) :
    (Algo.decay m vId).graph
      = (m.graph.map (fun n =>
          if n.id = vId then n
          else { n with data := { n.data with weight := n.data.weight * DECAY_FACTOR } })).filter
          (fun n => decide (DECAY_THRESHOLD < n.data.weight)) := by
  simp only [Algo.decay, Model.iter_components_mut, List.filterMap_map]
  refine filterMap_eq_filter_map_of_pointwise _ _ _ _ ?_
  intro a
  obtain ⟨aid, ⟨amu, asigma, aw⟩, anbrs⟩ := a
  by_cases hid0 : aid = vId
  · subst hid0
    have hw : aw / DECAY_FACTOR * DECAY_FACTOR = aw :=
      div_mul_cancel₀ _ (by norm_num [DECAY_FACTOR])
    simp [Function.comp, hw]
  · simp [Function.comp, hid0]

/-- C3: after the non-empty branch of a fit (absorb or split), the decay pass
multiplies every ball's mass by `DECAY_FACTOR` except the vertex the update
step produced (whose mass is unchanged: it is pre-divided by `DECAY_FACTOR`),
and exactly the balls whose resulting mass exceeds `DECAY_THRESHOLD` remain;
the init branch (first point into an empty model) runs no decay and no
prune. -/
theorem decay_skips_vertex_prunes_rest {Point : Type _} [DecidableEq Point] :
    (∀ (m : Model Point) (vId : ℕ),
      (Algo.decay m vId).graph
        = (m.graph.map (fun n =>
            if n.id = vId then n
            else { n with data := { n.data with weight := n.data.weight * DECAY_FACTOR } })).filter
            (fun n => decide (DECAY_THRESHOLD < n.data.weight)))
    ∧ (∀ (algo : Algo Point) (sd : Point → Point → ℚ) (m : Model Point) (p : Point),
        m.get_neighborhood sd p = [] →
        algo.fit sd m p = ⟨m.graph ++ [⟨m.nextId, ⟨p, Fx.inf, 0⟩, []⟩], m.nextId + 1⟩)
    ∧ (∀ (algo : Algo Point) (sd : Point → Point → ℚ) (m : Model Point) (p : Point)
        (primary : Node Point) (rest : List (Node Point)),
        m.get_neighborhood sd p = primary :: rest →
        algo.fit sd m p
          = Algo.decay (algo.preDecay m p primary rest).1 (algo.preDecay m p primary rest).2) := by
  refine ⟨?_, ?_, ?_⟩
  · intro m vId
    exact decay_graph_eq m vId
  · intro algo sd m p hgn
    simp only [Algo.fit, hgn, Algo.init, Model.add_component]
  · intro algo sd m p primary rest hgn
    simp only [Algo.fit, hgn]

/-- C3 witness: decaying the two-ball model while vertex 1 was just touched
leaves ball 1's mass at 2, multiplies ball 0's mass to `0.999`, and both
survive the prune; and the first-ever fit into the empty model adds the
sentinel ball with no decay pass. -/
theorem decay_skips_vertex_prunes_rest_witness :
    (Algo.decay twoBallModel 1).graph
      = [⟨0, ⟨[0, 0], Fx.fin 1, 999/1000⟩, [1]⟩, ⟨1, ⟨[10, 0], Fx.fin 1, 2⟩, [0]⟩]
    ∧ euclidAlgo.fit euclid_dist Model.empty [5, -1]
      = ⟨[⟨0, ⟨[5, -1], Fx.inf, 0⟩, []⟩], 1⟩ := by
  have h := @decay_skips_vertex_prunes_rest (List ℚ) inferInstance
  constructor
  · rw [h.1 twoBallModel 1]
    norm_num [twoBallModel, DECAY_FACTOR, DECAY_THRESHOLD]
  · exact h.2.1 euclidAlgo euclid_dist Model.empty [5, -1] rfl

/-- C4: during local refinement the primary merges with the head `L[0]` of its
rebuilt neighbor list iff `d12 = dist(primary.mu, L[0].mu)` is below
`(primary.sigma + L[0].sigma) * MERGE_THRESHOLD`; the merge combines the
centers weighted by the masses, sets the primary's radius to
`d12 + (σ₁w₁ + σ₂w₂)/(w₁ + w₂)`, sums the masses, zeroes `L[0]`'s mass, and
removes `L[0]` from the (to-be-committed) neighbor list. -/
theorem merge_with_head_iff_close {Point : Type _} (algo : Algo Point)
    (m : Model Point) (v h : Node Point) (t : List (Node Point)) :
    (Fx.qlt (algo.dist v.data.mu h.data.mu)
        ((v.data.sigma.add h.data.sigma).mulq MERGE_THRESHOLD) = true →
      algo.rebuild_merge m v (h :: t)
        = (algo.merge_components m v h (algo.dist v.data.mu h.data.mu), t)
      ∧ algo.merge_components m v h (algo.dist v.data.mu h.data.mu)
        = (m.setData v.id
            ⟨algo.combine v.data.mu v.data.weight h.data.mu h.data.weight,
             Fx.qadd (algo.dist v.data.mu h.data.mu)
               (((v.data.sigma.mulq v.data.weight).add
                 (h.data.sigma.mulq h.data.weight)).divq
                 (v.data.weight + h.data.weight)),
             v.data.weight + h.data.weight⟩).setData h.id { h.data with weight := 0 })
    ∧ (Fx.qlt (algo.dist v.data.mu h.data.mu)
        ((v.data.sigma.add h.data.sigma).mulq MERGE_THRESHOLD) = false →
      algo.rebuild_merge m v (h :: t) = (m, h :: t)) := by
  constructor
  · intro hclose
    constructor
    · simp only [Algo.rebuild_merge, Algo.should_merge, hclose, if_true]
    · rfl
  · intro hfar
    simp only [Algo.rebuild_merge, Algo.should_merge, hfar, Bool.false_eq_true, if_false]

/-- C4 witness: in the two-ball model the balls at `[0,0]` and `[10,0]` have
`d12 = 100 ≥ (1+1)*1`, so no merge happens; moving the head to `[1,0]`
(`d12 = 1 < 2`) merges: center `(0*1 + 1*2)/3 = 2/3`, radius
`1 + (1*1 + 1*2)/3 = 2`, mass 3, head mass zeroed, head dropped from the
list. -/
theorem merge_with_head_iff_close_witness :
    euclidAlgo.rebuild_merge twoBallModel ⟨0, ⟨[0, 0], Fx.fin 1, 1⟩, [1]⟩
        [⟨1, ⟨[10, 0], Fx.fin 1, 2⟩, [0]⟩]
      = (twoBallModel, [⟨1, ⟨[10, 0], Fx.fin 1, 2⟩, [0]⟩])
    ∧ euclidAlgo.rebuild_merge twoBallModel ⟨0, ⟨[0, 0], Fx.fin 1, 1⟩, [1]⟩
        [⟨1, ⟨[1, 0], Fx.fin 1, 2⟩, [0]⟩]
      = (euclidAlgo.merge_components twoBallModel ⟨0, ⟨[0, 0], Fx.fin 1, 1⟩, [1]⟩
          ⟨1, ⟨[1, 0], Fx.fin 1, 2⟩, [0]⟩ 1, [])
    ∧ euclidAlgo.merge_components twoBallModel ⟨0, ⟨[0, 0], Fx.fin 1, 1⟩, [1]⟩
        ⟨1, ⟨[1, 0], Fx.fin 1, 2⟩, [0]⟩ 1
      = (twoBallModel.setData 0 ⟨[2/3, 0], Fx.fin 2, 3⟩).setData 1 ⟨[1, 0], Fx.fin 1, 0⟩ := by
  have hfar := (merge_with_head_iff_close euclidAlgo twoBallModel
    ⟨0, ⟨[0, 0], Fx.fin 1, 1⟩, [1]⟩ ⟨1, ⟨[10, 0], Fx.fin 1, 2⟩, [0]⟩ []).2
    (by norm_num [Fx.qlt, Fx.add, Fx.mulq, MERGE_THRESHOLD, euclid_dist, euclidAlgo])
  have hclose := (merge_with_head_iff_close euclidAlgo twoBallModel
    ⟨0, ⟨[0, 0], Fx.fin 1, 1⟩, [1]⟩ ⟨1, ⟨[1, 0], Fx.fin 1, 2⟩, [0]⟩ []).1
    (by norm_num [Fx.qlt, Fx.add, Fx.mulq, MERGE_THRESHOLD, euclid_dist, euclidAlgo])
  have hd : euclidAlgo.dist [0, 0] [1, 0] = 1 := by
    norm_num [euclidAlgo, euclid_dist]
  refine ⟨hfar, ?_, ?_⟩
  · have h1 := hclose.1
    rw [show euclidAlgo.dist (⟨0, ⟨[0, 0], Fx.fin 1, 1⟩, [1]⟩ : Node (List ℚ)).data.mu
        (⟨1, ⟨[1, 0], Fx.fin 1, 2⟩, [0]⟩ : Node (List ℚ)).data.mu = 1 from hd] at h1
    exact h1
  · have h2 := hclose.2
    rw [show euclidAlgo.dist (⟨0, ⟨[0, 0], Fx.fin 1, 1⟩, [1]⟩ : Node (List ℚ)).data.mu
        (⟨1, ⟨[1, 0], Fx.fin 1, 2⟩, [0]⟩ : Node (List ℚ)).data.mu = 1 from hd] at h2
    rw [h2]
    norm_num [euclidAlgo, real_combine, Fx.qadd, Fx.mulq, Fx.add, Fx.divq]

/-- C9: `Streamer::run` emits exactly one serialized model per successfully
processed input record and returns cleanly when the input ends: if no error
occurs, every input is consumed and one emission is made per input; on the
first input-transport, parse or sink error it stops at once and returns that
error — the first `k` records each produced one emission, the failing record
produced none, and the inputs after the failing one are never consumed. -/
theorem streamer_one_emission_per_input {Point E S : Type _} [DecidableEq Point]
    (algo : Algo Point) (sd : Point → Point → ℚ) (toStr : Model Point → String)
    (parse : String → Except E Point) (write : S → String → Except E S)
    (inputs : List (Except E String)) (m : Model Point) (s : S) :
    ((Streamer.run algo sd toStr parse write inputs m s).err = none →
      (Streamer.run algo sd toStr parse write inputs m s).remaining = []
      ∧ (Streamer.run algo sd toStr parse write inputs m s).emitted.length = inputs.length)
    ∧ ∀ e : E, (Streamer.run algo sd toStr parse write inputs m s).err = some e →
      ∃ k : ℕ, k < inputs.length
        ∧ (Streamer.run algo sd toStr parse write inputs m s).emitted.length = k
        ∧ (Streamer.run algo sd toStr parse write inputs m s).remaining
            = inputs.drop (k + 1) := by
  induction inputs generalizing m s with
  | nil =>
    refine ⟨fun _ => ⟨rfl, rfl⟩, fun e he => ?_⟩
    simp [Streamer.run] at he
  | cons input rest ih =>
    match input with
    | .error e0 =>
      refine ⟨fun hnone => ?_, fun e he => ?_⟩
      · simp [Streamer.run] at hnone
      · exact ⟨0, Nat.succ_pos _, rfl, rfl⟩
    | .ok str =>
      match hp : parse str with
      | .error e0 =>
        refine ⟨fun hnone => ?_, fun e he => ?_⟩
        · simp [Streamer.run, hp] at hnone
        · refine ⟨0, Nat.succ_pos _, ?_, ?_⟩
          · simp [Streamer.run, hp]
          · simp [Streamer.run, hp]
      | .ok p =>
        match hw : write s (toStr (algo.fit sd m p)) with
        | .error e0 =>
          refine ⟨fun hnone => ?_, fun e he => ?_⟩
          · simp [Streamer.run, hp, hw] at hnone
          · refine ⟨0, Nat.succ_pos _, ?_, ?_⟩
            · simp [Streamer.run, hp, hw]
            · simp [Streamer.run, hp, hw]
        | .ok s1 =>
          have hrun : Streamer.run algo sd toStr parse write (Except.ok str :: rest) m s
              = ⟨(Streamer.run algo sd toStr parse write rest (algo.fit sd m p) s1).model,
                 (Streamer.run algo sd toStr parse write rest (algo.fit sd m p) s1).sink,
                 toStr (algo.fit sd m p) ::
                   (Streamer.run algo sd toStr parse write rest (algo.fit sd m p) s1).emitted,
                 (Streamer.run algo sd toStr parse write rest (algo.fit sd m p) s1).remaining,
                 (Streamer.run algo sd toStr parse write rest (algo.fit sd m p) s1).err⟩ := by
            simp [Streamer.run, hp, hw]
          rw [hrun]
          refine ⟨fun hnone => ?_, fun e he => ?_⟩
          · have h1 := (ih (algo.fit sd m p) s1).1 hnone
            exact ⟨h1.1, by simp [h1.2]⟩
          · obtain ⟨k, hk, hlen, hrem⟩ := (ih (algo.fit sd m p) s1).2 e he
            exact ⟨k + 1, by simp only [List.length_cons]; omega, by simp [hlen],
              by simpa using hrem⟩

/-- C9 witness: running the streamer on `[ok "a", error 7, ok "b"]` (with an
always-succeeding parser and sink) stops at the transport error: one emission
for the first record, none for the failing one, and `ok "b"` never
consumed. -/
theorem streamer_one_emission_per_input_witness :
    ∃ k : ℕ, k < 3
      ∧ (Streamer.run euclidAlgo euclid_dist (fun _ => "m")
          (fun _ => Except.ok [0]) (fun s _ => Except.ok (s + 1))
          [Except.ok "a", Except.error 7, Except.ok "b"] Model.empty 0).emitted.length = k
      ∧ (Streamer.run euclidAlgo euclid_dist (fun _ => "m")
          (fun _ => Except.ok [0]) (fun s _ => Except.ok (s + 1))
          [Except.ok "a", Except.error 7, Except.ok "b"] Model.empty 0).remaining
        = List.drop (k + 1) [Except.ok "a", Except.error 7, Except.ok "b"] := by
  have h := (streamer_one_emission_per_input euclidAlgo euclid_dist (fun _ => "m")
    (fun _ => Except.ok [0]) (fun s _ => Except.ok (s + 1))
    [Except.ok "a", Except.error 7, Except.ok "b"] Model.empty 0).2 7 rfl
  simpa using h

/-- `kLt` is transitive. -/
theorem kLt_trans {x y z : ℚ × ℕ} (h1 : kLt x y) (h2 : kLt y z) : kLt x z := by
  rcases h1 with h1 | ⟨he1, hi1⟩ <;> rcases h2 with h2 | ⟨he2, hi2⟩
  · exact Or.inl (h1.trans h2)
  · exact Or.inl (he2 ▸ h1)
  · exact Or.inl (by rw [he1]; exact h2)
  · exact Or.inr ⟨he1.trans he2, hi1.trans hi2⟩

/-- `kLt` is irreflexive. -/
theorem kLt_irrefl (x : ℚ × ℕ) : ¬ kLt x x := by
  rintro (h | ⟨_, h⟩) <;> exact absurd h (lt_irrefl _)

/-- Invariant of the `smallest` fold: if the accumulator holds the
(distance, position)-lexicographically two smallest entries of the first `c`
elements, then after folding the remaining suffix it holds the two smallest
entries of the whole list. -/
theorem smallest_foldl_spec {α : Type _} (L : List (α × ℚ)) :
    ∀ (n c : ℕ), c + n = L.length →
    ∀ (a b : α × ℚ) (i j : ℕ), i < c → j < c →
    L[i]? = some a → L[j]? = some b →
    kLt (a.2, i) (b.2, j) →
    (∀ k, k < c → k ≠ i → k ≠ j → ∀ x, L[k]? = some x → kLt (b.2, j) (x.2, k)) →
    ∃ i' j' : ℕ, i' < L.length ∧ j' < L.length ∧
      L[i']? = some ((L.drop c).foldl (fun p d => smallest p.1 p.2 d) (a, b)).1 ∧
      L[j']? = some ((L.drop c).foldl (fun p d => smallest p.1 p.2 d) (a, b)).2 ∧
      kLt (((L.drop c).foldl (fun p d => smallest p.1 p.2 d) (a, b)).1.2, i')
        (((L.drop c).foldl (fun p d => smallest p.1 p.2 d) (a, b)).2.2, j') ∧
      ∀ k, k < L.length → k ≠ i' → k ≠ j' → ∀ x, L[k]? = some x →
        kLt (((L.drop c).foldl (fun p d => smallest p.1 p.2 d) (a, b)).2.2, j') (x.2, k) := by
  intro n
  induction n with
  | zero =>
    intro c hc a b i j hi hj ha hb hA hB
    have hd : L.drop c = [] := List.drop_eq_nil_of_le (by omega)
    rw [hd]
    exact ⟨i, j, by omega, by omega, ha, hb, hA,
      fun k hk hki hkj x hx => hB k (by omega) hki hkj x hx⟩
  | succ n ih =>
    intro c hc a b i j hi hj ha hb hA hB
    have hcL : c < L.length := by omega
    have hab : ¬ (b.2 < a.2) := by
      rcases hA with h | ⟨he, _⟩
      · exact not_lt.mpr h.le
      · exact not_lt.mpr (le_of_eq he)
    have hxc : L[c]? = some L[c] := List.getElem?_eq_getElem hcL
    rw [List.drop_eq_getElem_cons hcL, List.foldl_cons]
    by_cases hx1 : L[c].2 < b.2
    · by_cases hx2 : L[c].2 < a.2
      · have hsm : smallest a b L[c] = (L[c], a) := by
          simp [smallest, sort2, hab, hx1, hx2]
        have hacc : smallest ((a, b) : (α × ℚ) × (α × ℚ)).1 (a, b).2 L[c] = (L[c], a) := hsm
        rw [hacc]
        refine ih (c + 1) (by omega) _ _ c i (by omega) (by omega) hxc ha
          (Or.inl hx2) ?_
        intro k hk hkc hki x hx
        rcases eq_or_ne k j with rfl | hkj
        · have hbx : x = b := by rw [hb] at hx; exact (Option.some_inj.mp hx).symm
          rw [hbx]
          exact hA
        · exact kLt_trans hA (hB k (by omega) hki hkj x hx)
      · have hsm : smallest a b L[c] = (a, L[c]) := by
          simp [smallest, sort2, hab, hx1, hx2]
        have hacc : smallest ((a, b) : (α × ℚ) × (α × ℚ)).1 (a, b).2 L[c] = (a, L[c]) := hsm
        rw [hacc]
        have hax : a.2 ≤ L[c].2 := not_lt.mp hx2
        refine ih (c + 1) (by omega) _ _ i c (by omega) (by omega) ha hxc ?_ ?_
        · rcases lt_or_eq_of_le hax with h | h
          · exact Or.inl h
          · exact Or.inr ⟨h, by omega⟩
        · intro k hk hki hkc x hx
          rcases eq_or_ne k j with rfl | hkj
          · have hbx : x = b := by rw [hb] at hx; exact (Option.some_inj.mp hx).symm
            rw [hbx]
            exact Or.inl hx1
          · exact kLt_trans (Or.inl hx1) (hB k (by omega) hki hkj x hx)
    · have hsm : smallest a b L[c] = (a, b) := by
        simp [smallest, sort2, hab, hx1]
      have hacc : smallest ((a, b) : (α × ℚ) × (α × ℚ)).1 (a, b).2 L[c] = (a, b) := hsm
      rw [hacc]
      have hbx : b.2 ≤ L[c].2 := not_lt.mp hx1
      refine ih (c + 1) (by omega) _ _ i j (by omega) (by omega) ha hb hA ?_
      intro k hk hki hkj x hx
      rcases eq_or_ne k c with rfl | hkc
      · have hxx : x = L[k] := by rw [hxc] at hx; exact (Option.some_inj.mp hx).symm
        rw [hxx]
        rcases lt_or_eq_of_le hbx with h | h
        · exact Or.inl h
        · exact Or.inr ⟨h, by omega⟩
      · exact hB k (by omega) hki hkj x hx


/-- Characterization of the two-nearest selection on a list of at least two
candidates: it returns the elements at the (distance, position)-lexicographic
minimum position `i` and at the minimum position `j` of the rest. -/
theorem get_neighborhood_two_spec {α P : Type _} (l : List α) (point : P)
    (dist : P → α → ℚ) (hl : 2 ≤ l.length) :
    ∃ i j : Fin l.length, i ≠ j ∧
      GetNeighborhood.get_neighborhood l point dist
        = (some (l.get i, dist point (l.get i)), some (l.get j, dist point (l.get j))) ∧
      (∀ k : Fin l.length, k ≠ i →
        kLt (dist point (l.get i), i.1) (dist point (l.get k), k.1)) ∧
      (∀ k : Fin l.length, k ≠ i → k ≠ j →
        kLt (dist point (l.get j), j.1) (dist point (l.get k), k.1)) := by
  match l, hl with
  | p0 :: p1 :: rest, _ =>
    set lf : List α := p0 :: p1 :: rest with hlf
    set f : α → α × ℚ := fun p => (p, dist point p) with hf
    set L : List (α × ℚ) := lf.map f with hLdef
    have hlen : 2 ≤ L.length := by simp [hLdef, hlf]
    have hLl : L.length = lf.length := by simp [hLdef]
    have hdrop : L.drop 2 = rest.map f := by simp [hLdef, hlf]
    have h0 : L[0]? = some (f p0) := by simp [hLdef, hlf]
    have h1 : L[1]? = some (f p1) := by simp [hLdef, hlf]
    have hgetL : ∀ k : ℕ, ∀ hk : k < L.length, L[k]? = some (f (lf.get ⟨k, by omega⟩)) := by
      intro k hk
      rw [List.getElem?_eq_getElem hk]
      have : L[k] = f (lf.get ⟨k, by omega⟩) := by
        simp [hLdef, List.getElem_map]
      rw [this]
    have main : ∀ a b : α × ℚ, ∀ i0 j0 : ℕ, i0 < 2 → j0 < 2 → i0 ≠ j0 →
        L[i0]? = some a → L[j0]? = some b → kLt (a.2, i0) (b.2, j0) →
        (sort2 (f p0) (f p1)).1 = a → (sort2 (f p0) (f p1)).2 = b →
        ∃ i j : Fin lf.length, i ≠ j ∧
          GetNeighborhood.get_neighborhood lf point dist
            = (some (lf.get i, dist point (lf.get i)),
               some (lf.get j, dist point (lf.get j))) ∧
          (∀ k : Fin lf.length, k ≠ i →
            kLt (dist point (lf.get i), i.1) (dist point (lf.get k), k.1)) ∧
          (∀ k : Fin lf.length, k ≠ i → k ≠ j →
            kLt (dist point (lf.get j), j.1) (dist point (lf.get k), k.1)) := by
      intro a b i0 j0 hi0 hj0 hij ha hb hab hs1 hs2
      obtain ⟨i', j', hi', hj', hri, hrj, hrk, hrB⟩ :=
        smallest_foldl_spec L (L.length - 2) 2 (by omega) a b i0 j0 hi0 hj0 ha hb hab
          (fun k hk hki hkj x hx => absurd hk (by omega))
      rw [hdrop] at hri hrj hrk hrB
      set r := (rest.map f).foldl (fun p d => smallest p.1 p.2 d) (a, b) with hr
      have hfo : GetNeighborhood.get_neighborhood lf point dist = (some r.1, some r.2) := by
        show fold_0 (lf.map f) = _
        simp only [hlf, List.map_cons, fold_0, fold_1, fold_others_2]
        rw [hs1, hs2]
      have hri' : r.1 = f (lf.get ⟨i', by omega⟩) := by
        rw [hgetL i' hi'] at hri
        exact (Option.some_inj.mp hri).symm
      have hrj' : r.2 = f (lf.get ⟨j', by omega⟩) := by
        rw [hgetL j' hj'] at hrj
        exact (Option.some_inj.mp hrj).symm
      have hne : i' ≠ j' := by
        intro hcon
        subst hcon
        rw [hri] at hrj
        have : r.1 = r.2 := Option.some_inj.mp hrj
        rw [this] at hrk
        exact kLt_irrefl _ hrk
      have hr1d : r.1.2 = dist point (lf.get ⟨i', by omega⟩) := by rw [hri']
      have hr2d : r.2.2 = dist point (lf.get ⟨j', by omega⟩) := by rw [hrj']
      refine ⟨⟨i', by omega⟩, ⟨j', by omega⟩, ?_, ?_, ?_, ?_⟩
      · intro hcon
        exact hne (congrArg Fin.val hcon)
      · rw [hfo, hri', hrj']
      · intro k hk
        rcases eq_or_ne k.1 j' with hkj | hkj
        · have : lf.get k = lf.get ⟨j', by omega⟩ := by congr 1; exact Fin.ext hkj
          rw [this]
          have := hrk
          rw [hr1d, hr2d] at this
          simpa [hkj] using this
        · have hb2 := hrB k.1 (by omega) (fun hcon => hk (Fin.ext hcon)) hkj
            (f (lf.get ⟨k.1, by omega⟩)) (hgetL k.1 (by omega))
          have hk2 := hrk
          rw [hr1d, hr2d] at hk2
          rw [hr2d] at hb2
          have := kLt_trans hk2 hb2
          simpa using this
      · intro k hki hkj
        have hb2 := hrB k.1 (by omega) (fun hcon => hki (Fin.ext hcon))
          (fun hcon => hkj (Fin.ext hcon)) (f (lf.get ⟨k.1, by omega⟩))
          (hgetL k.1 (by omega))
        rw [hr2d] at hb2
        simpa using hb2
    by_cases hcmp : (f p1).2 < (f p0).2
    · exact main (f p1) (f p0) 1 0 (by omega) (by omega) (by omega) h1 h0 (Or.inl hcmp)
        (by simp [sort2, hcmp]) (by simp [sort2, hcmp])
    · have hle : (f p0).2 ≤ (f p1).2 := not_lt.mp hcmp
      have hkl : kLt ((f p0).2, 0) ((f p1).2, 1) := by
        rcases lt_or_eq_of_le hle with h | h
        · exact Or.inl h
        · exact Or.inr ⟨h, by omega⟩
      exact main (f p0) (f p1) 0 1 (by omega) (by omega) (by omega) h0 h1 hkl
        (by simp [sort2, hcmp]) (by simp [sort2, hcmp])

/-- C6: the two-nearest selection returns nothing for zero candidates, the
single candidate for one, and otherwise the two candidates with smallest
distances together with those distances, ascending, where `kLt` ties are
resolved toward the candidate seen first in the iteration. -/
theorem two_nearest_selection {α P : Type _} (l : List α) (point : P)
    (dist : P → α → ℚ) :
    (l = [] → GetNeighborhood.get_neighborhood l point dist = (none, none))
    ∧ (∀ a, l = [a] → GetNeighborhood.get_neighborhood l point dist
        = (some (a, dist point a), none))
    ∧ (2 ≤ l.length → ∃ i j : Fin l.length, i ≠ j ∧
        GetNeighborhood.get_neighborhood l point dist
          = (some (l.get i, dist point (l.get i)),
             some (l.get j, dist point (l.get j))) ∧
        (∀ k : Fin l.length, k ≠ i →
          kLt (dist point (l.get i), i.1) (dist point (l.get k), k.1)) ∧
        (∀ k : Fin l.length, k ≠ i → k ≠ j →
          kLt (dist point (l.get j), j.1) (dist point (l.get k), k.1))) := by
  refine ⟨?_, ?_, fun h => get_neighborhood_two_spec l point dist h⟩
  · rintro rfl
    rfl
  · rintro a rfl
    rfl

/-- C6 witness: on the three candidates `[3]`, `[1]`, `[2]` with target `[0]`
(squared distances 9, 1, 4) the selection picks positions 1 then 2, and the
empty and singleton cases behave as claimed. -/
theorem two_nearest_selection_witness :
    GetNeighborhood.get_neighborhood ([] : List (List ℚ)) ([0] : List ℚ) euclid_dist
      = (none, none)
    ∧ GetNeighborhood.get_neighborhood [[5]] ([0] : List ℚ) euclid_dist
      = (some ([5], 25), none)
    ∧ (∃ i j : Fin ([[3], [1], [2]] : List (List ℚ)).length, i ≠ j ∧
        GetNeighborhood.get_neighborhood [[3], [1], [2]] ([0] : List ℚ) euclid_dist
          = (some (([[3], [1], [2]] : List (List ℚ)).get i,
               euclid_dist [0] (([[3], [1], [2]] : List (List ℚ)).get i)),
             some (([[3], [1], [2]] : List (List ℚ)).get j,
               euclid_dist [0] (([[3], [1], [2]] : List (List ℚ)).get j))) ∧
        (∀ k : Fin ([[3], [1], [2]] : List (List ℚ)).length, k ≠ i →
          kLt (euclid_dist [0] (([[3], [1], [2]] : List (List ℚ)).get i), i.1)
            (euclid_dist [0] (([[3], [1], [2]] : List (List ℚ)).get k), k.1)) ∧
        (∀ k : Fin ([[3], [1], [2]] : List (List ℚ)).length, k ≠ i → k ≠ j →
          kLt (euclid_dist [0] (([[3], [1], [2]] : List (List ℚ)).get j), j.1)
            (euclid_dist [0] (([[3], [1], [2]] : List (List ℚ)).get k), k.1))) := by
  refine ⟨(two_nearest_selection [] [0] euclid_dist).1 rfl, ?_, ?_⟩
  · have h := (two_nearest_selection [[5]] [0] euclid_dist).2.1 [5] rfl
    rw [h]
    norm_num [euclid_dist]
  · exact (two_nearest_selection [[3], [1], [2]] [0] euclid_dist).2.2 (by norm_num)

/-- The two slots kept by `smallest` are among its three arguments. -/
theorem smallest_mem {α : Type _} (a b x : α × ℚ) :
    (smallest a b x).1 ∈ [a, b, x] ∧ (smallest a b x).2 ∈ [a, b, x] := by
  simp only [smallest, sort2]
  split_ifs <;> simp

/-- The pair produced by folding `smallest` is drawn from the accumulator and
the list. -/
theorem foldl_smallest_mem {α : Type _} :
    ∀ (l : List (α × ℚ)) (a b : α × ℚ),
    (l.foldl (fun p d => smallest p.1 p.2 d) (a, b)).1 ∈ a :: b :: l ∧
    (l.foldl (fun p d => smallest p.1 p.2 d) (a, b)).2 ∈ a :: b :: l := by
  intro l
  induction l with
  | nil => intro a b; constructor <;> simp
  | cons x t ih =>
    intro a b
    rw [List.foldl_cons]
    have hs := smallest_mem a b x
    have h2 := ih (smallest a b x).1 (smallest a b x).2
    have mem_lift : ∀ y : α × ℚ,
        y ∈ (smallest a b x).1 :: (smallest a b x).2 :: t → y ∈ a :: b :: x :: t := by
      intro y hy
      simp only [List.mem_cons, List.mem_singleton] at hy hs ⊢
      rcases hy with rfl | rfl | hy
      · tauto
      · tauto
      · tauto
    exact ⟨mem_lift _ h2.1, mem_lift _ h2.2⟩

/-- Any candidate reported by the one-pass selection is an element of the
candidate list. -/
theorem fold_0_mem {α : Type _} (l : List (α × ℚ)) :
    (∀ x, (fold_0 l).1 = some x → x ∈ l) ∧ (∀ x, (fold_0 l).2 = some x → x ∈ l) := by
  match l with
  | [] => constructor <;> intro x h <;> simp [fold_0] at h
  | [d] =>
    constructor <;> intro x h <;> simp [fold_0, fold_1] at h
    · simp [h]
  | d1 :: d2 :: t =>
    have hs : (sort2 d1 d2).1 ∈ [d1, d2] ∧ (sort2 d1 d2).2 ∈ [d1, d2] := by
      simp only [sort2]
      split_ifs <;> simp
    have hm := foldl_smallest_mem t (sort2 d1 d2).1 (sort2 d1 d2).2
    have mem_lift : ∀ y : α × ℚ,
        y ∈ (sort2 d1 d2).1 :: (sort2 d1 d2).2 :: t → y ∈ d1 :: d2 :: t := by
      intro y hy
      simp only [List.mem_cons, List.mem_singleton] at hy hs ⊢
      rcases hy with rfl | rfl | hy
      · tauto
      · tauto
      · tauto
    constructor <;> intro x h
    · simp only [fold_0, fold_1, fold_others_2, Option.some_inj] at h
      rw [← h]
      exact mem_lift _ hm.1
    · simp only [fold_0, fold_1, fold_others_2, Option.some_inj] at h
      rw [← h]
      exact mem_lift _ hm.2

/-- Every vertex returned by `Model::get_neighborhood` is a live vertex of the
graph. -/
theorem model_get_neighborhood_mem {Point : Type _} (m : Model Point)
    (sd : Point → Point → ℚ) (p : Point) :
    ∀ v ∈ m.get_neighborhood sd p, v ∈ m.graph := by
  intro v hv
  have hmem := fold_0_mem (m.graph.map (fun n => (n, Model.normalize sd p n.data)))
  unfold Model.get_neighborhood GetNeighborhood.get_neighborhood at hv
  rcases h0 : fold_0 (m.graph.map (fun n => (n, Model.normalize sd p n.data))) with ⟨o1, o2⟩
  rw [h0] at hv
  have lift : ∀ y : Node Point × ℚ,
      y ∈ m.graph.map (fun n => (n, Model.normalize sd p n.data)) → y.1 ∈ m.graph := by
    intro y hy
    obtain ⟨q, hq, rfl⟩ := List.mem_map.mp hy
    exact hq
  cases o1 with
  | none => simp at hv
  | some n1 =>
    cases o2 with
    | none =>
      simp only [List.mem_singleton] at hv
      subst hv
      exact lift n1 (hmem.1 n1 (by rw [h0]))
    | some n2 =>
      simp only [List.mem_cons, List.mem_singleton, List.not_mem_nil, or_false] at hv
      rcases hv with rfl | rfl
      · exact lift n1 (hmem.1 n1 (by rw [h0]))
      · exact lift n2 (hmem.2 n2 (by rw [h0]))

/-- `TwoNearestOf` on two or more candidates unfolds to the stable-two-nearest
existence statement. -/
theorem TwoNearestOf_cons_cons {Point : Type _} (sd : Point → Point → ℚ)
    (a b : Node Point) (l : List (Node Point)) (v : Node Point) :
    TwoNearestOf sd (a :: b :: l) v ↔
      ∃ i j : Fin (a :: b :: l).length, i ≠ j ∧
        v.neighbors = [((a :: b :: l).get i).id, ((a :: b :: l).get j).id] ∧
        (∀ k : Fin (a :: b :: l).length, k ≠ i →
          kLt (Model.normalize sd v.data.mu ((a :: b :: l).get i).data, i.1)
            (Model.normalize sd v.data.mu ((a :: b :: l).get k).data, k.1)) ∧
        (∀ k : Fin (a :: b :: l).length, k ≠ i → k ≠ j →
          kLt (Model.normalize sd v.data.mu ((a :: b :: l).get j).data, j.1)
            (Model.normalize sd v.data.mu ((a :: b :: l).get k).data, k.1)) :=
  Iff.rfl

/-- The balls a model's serialized form carries are its graph's balls in
insertion order, whatever graph the `load` fold starts from. -/
theorem load_fold_map_data {Point : Type _} :
    ∀ (data : List (NormalData Point)) (M : Model Point),
    ((data.foldl (fun mm b => (mm.add_component b []).2) M).graph).map (fun n => n.data)
      = M.graph.map (fun n => n.data) ++ data := by
  intro data
  induction data with
  | nil => intro M; simp
  | cons b t ih =>
    intro M
    rw [List.foldl_cons, ih]
    simp [Model.add_component]

/-- Transfer of the stable-two-nearest property along an id- and
data-preserving rewrite of the candidate vertices. -/
theorem TwoNearestOf_map {Point : Type _} [DecidableEq Point]
    (sd : Point → Point → ℚ) (cands : List (Node Point)) (v : Node Point)
    (g : Node Point → Node Point)
    (hgid : ∀ u, (g u).id = u.id) (hgdata : ∀ u, (g u).data = u.data)
    (hnb : (g v).neighbors = neighborhood_ids
      (GetNeighborhood.get_neighborhood cands v.data.mu
        (fun p w => Model.normalize sd p w.data))) :
    TwoNearestOf sd (cands.map g) (g v) := by
  rcases cands with _ | ⟨w1, _ | ⟨w2, t⟩⟩
  · show (g v).neighbors = []
    rw [hnb]
    rfl
  · show (g v).neighbors = [(g w1).id]
    rw [hnb, hgid]
    rfl
  · obtain ⟨i, j, hij, hgneq, hmin1, hmin2⟩ :=
      get_neighborhood_two_spec (w1 :: w2 :: t) v.data.mu
        (fun p w => Model.normalize sd p w.data) (by simp)
    have hnb2 : (g v).neighbors
        = [((w1 :: w2 :: t).get i).id, ((w1 :: w2 :: t).get j).id] := by
      rw [hnb, hgneq]
      rfl
    have hlen : ((w1 :: w2 :: t).map g).length = (w1 :: w2 :: t).length :=
      List.length_map _ _
    simp only [List.get_eq_getElem] at hnb2 hmin1 hmin2
    show ∃ a b : Fin ((w1 :: w2 :: t).map g).length, a ≠ b ∧
      (g v).neighbors
        = [(((w1 :: w2 :: t).map g).get a).id, (((w1 :: w2 :: t).map g).get b).id] ∧
      (∀ k : Fin ((w1 :: w2 :: t).map g).length, k ≠ a →
        kLt (Model.normalize sd (g v).data.mu (((w1 :: w2 :: t).map g).get a).data, a.1)
          (Model.normalize sd (g v).data.mu (((w1 :: w2 :: t).map g).get k).data, k.1)) ∧
      (∀ k : Fin ((w1 :: w2 :: t).map g).length, k ≠ a → k ≠ b →
        kLt (Model.normalize sd (g v).data.mu (((w1 :: w2 :: t).map g).get b).data, b.1)
          (Model.normalize sd (g v).data.mu (((w1 :: w2 :: t).map g).get k).data, k.1))
    refine ⟨⟨i.1, by rw [hlen]; exact i.2⟩, ⟨j.1, by rw [hlen]; exact j.2⟩, ?_, ?_, ?_, ?_⟩
    · intro hcon
      refine hij (Fin.ext ?_)
      have := congrArg Fin.val hcon
      simpa using this
    · simp only [List.get_eq_getElem, List.getElem_map, hgid]
      exact hnb2
    · intro k hki
      have hk : (⟨k.1, by rw [← hlen]; exact k.2⟩ : Fin (w1 :: w2 :: t).length) ≠ i := by
        intro hcon
        refine hki (Fin.ext ?_)
        have := congrArg Fin.val hcon
        simpa using this
      have := hmin1 ⟨k.1, by rw [← hlen]; exact k.2⟩ hk
      simpa only [List.get_eq_getElem, List.getElem_map, hgdata] using this
    · intro k hki hkj
      have hk1 : (⟨k.1, by rw [← hlen]; exact k.2⟩ : Fin (w1 :: w2 :: t).length) ≠ i := by
        intro hcon
        refine hki (Fin.ext ?_)
        have := congrArg Fin.val hcon
        simpa using this
      have hk2 : (⟨k.1, by rw [← hlen]; exact k.2⟩ : Fin (w1 :: w2 :: t).length) ≠ j := by
        intro hcon
        refine hkj (Fin.ext ?_)
        have := congrArg Fin.val hcon
        simpa using this
      have := hmin2 ⟨k.1, by rw [← hlen]; exact k.2⟩ hk1 hk2
      simpa only [List.get_eq_getElem, List.getElem_map, hgdata] using this

/-- C5 (amended): loading the serialized form of a model yields the same balls
in the same insertion order, and each vertex's neighbor list is the stable
two-nearest, by normalized distance, among the balls of the model
VALUE-DISTINCT from it (`load`'s candidate filter uses `Vertex`'s value
`PartialEq`, so a value-equal duplicate is excluded like the ball itself). -/
theorem load_serialize_roundtrip {Point : Type _} [DecidableEq Point]
    (sd : Point → Point → ℚ) (m : Model Point) :
    (Model.load sd (serialize_model m)).graph.map (fun n => n.data)
      = m.graph.map (fun n => n.data)
    ∧ ∀ k : Fin (Model.load sd (serialize_model m)).graph.length,
        TwoNearestOf sd
          (load_candidates (Model.load sd (serialize_model m))
            ((Model.load sd (serialize_model m)).graph.get k))
          ((Model.load sd (serialize_model m)).graph.get k) := by
  set D := serialize_model m with hD
  set m0 : Model Point := D.foldl (fun mm b => (mm.add_component b []).2) Model.empty
    with hm0
  set g : Node Point → Node Point := fun v =>
    let nb := GetNeighborhood.get_neighborhood (load_candidates m0 v) v.data.mu
      (fun p w => Model.normalize sd p w.data)
    { v with neighbors := neighborhood_ids nb } with hg
  have hlm : (Model.load sd D).graph = m0.graph.map g := rfl
  constructor
  · rw [hlm, List.map_map]
    have hco : ((fun n : Node Point => n.data) ∘ g) = (fun n : Node Point => n.data) := rfl
    rw [hco]
    have h2 := load_fold_map_data D Model.empty
    rw [← hm0] at h2
    simp only [Model.empty, List.map_nil, List.nil_append] at h2
    rw [h2, hD]
    rfl
  · intro k
    obtain ⟨kv, hkv⟩ := k
    have hlen2 : (Model.load sd D).graph.length = m0.graph.length := by
      rw [hlm, List.length_map]
    have hk0 : kv < m0.graph.length := by omega
    have hget : (Model.load sd D).graph.get ⟨kv, hkv⟩ = g (m0.graph.get ⟨kv, hk0⟩) := by
      have h1 : (m0.graph.map g)[kv]? = some (g (m0.graph.get ⟨kv, hk0⟩)) := by
        rw [List.getElem?_map, List.getElem?_eq_getElem hk0]
        simp [List.get_eq_getElem]
      have h2 : (Model.load sd D).graph[kv]?
          = some ((Model.load sd D).graph.get ⟨kv, hkv⟩) := by
        simp [List.getElem?_eq_getElem hkv, List.get_eq_getElem]
      have h3 : (Model.load sd D).graph[kv]? = (m0.graph.map g)[kv]? := by rw [hlm]
      exact Option.some_inj.mp (h2.symm.trans (h3.trans h1))
    have hcand : load_candidates (Model.load sd D)
          ((Model.load sd D).graph.get ⟨kv, hkv⟩)
        = (load_candidates m0 (m0.graph.get ⟨kv, hk0⟩)).map g := by
      rw [hget]
      show (Model.load sd D).graph.filter _ = _
      rw [hlm, List.filter_map]
      rfl
    rw [hcand, hget]
    exact TwoNearestOf_map sd _ _ g (fun u => rfl) (fun u => rfl) rfl

/-- C5 counterexample: on the model holding two VALUE-equal balls (plus a
distinct third), `load ∘ serialize` violates the claim's identity reading.
The first duplicate's candidate set, per the claim, is the OTHER two balls
(its duplicate at normalized distance 0 and the third ball), so its neighbor
list should have two entries; the code's value filter drops the duplicate too
and the loaded list is the single entry `[2]`. -/
theorem load_roundtrip_identity_spec_false :
    ¬ load_roundtrip_identity_spec euclid_dist dupBallModel := by
  intro h
  unfold load_roundtrip_identity_spec at h
  have hlm : (Model.load euclid_dist (serialize_model dupBallModel)).graph
      = [⟨0, ⟨[0], Fx.fin 1, 1⟩, [2]⟩, ⟨1, ⟨[0], Fx.fin 1, 1⟩, [2]⟩,
         ⟨2, ⟨[3], Fx.fin 1, 1⟩, [0, 1]⟩] := by
    norm_num [Model.load, serialize_model, dupBallModel, Model.empty, Model.add_component,
      load_candidates, Vertex.peq, GetNeighborhood.get_neighborhood, fold_0, fold_1,
      fold_others_2, sort2, smallest, Model.normalize, Fx.qdiv, euclid_dist,
      neighborhood_ids, List.filter]
  have hlen : 0 < (Model.load euclid_dist (serialize_model dupBallModel)).graph.length := by
    rw [hlm]
    norm_num
  have h0 := h.2 ⟨0, hlen⟩
  have hcand : (Model.load euclid_dist (serialize_model dupBallModel)).graph.eraseIdx 0
      = [⟨1, ⟨[0], Fx.fin 1, 1⟩, [2]⟩, ⟨2, ⟨[3], Fx.fin 1, 1⟩, [0, 1]⟩] := by
    rw [hlm]
    rfl
  have hget : (Model.load euclid_dist (serialize_model dupBallModel)).graph.get ⟨0, hlen⟩
      = ⟨0, ⟨[0], Fx.fin 1, 1⟩, [2]⟩ := by
    simp [hlm]
  rw [hcand, hget, TwoNearestOf_cons_cons] at h0
  obtain ⟨i, j, _, hneq, _, _⟩ := h0
  have hlcontra := congrArg List.length hneq
  simp at hlcontra

/-- Total mass is non-negative when all ball masses are. -/
theorem totalMass_nonneg {Point : Type _} (m : Model Point)
    (h : ∀ n ∈ m.graph, 0 ≤ n.data.weight) : 0 ≤ totalMass m := by
  apply List.sum_nonneg
  intro x hx
  obtain ⟨n, hn, rfl⟩ := List.mem_map.mp hx
  exact h n hn

/-- With pairwise-distinct identities, a vertex is determined by its id. -/
theorem mem_id_unique {Point : Type _} :
    ∀ (l : List (Node Point)), (l.map (fun n => n.id)).Nodup →
    ∀ a b : Node Point, a ∈ l → b ∈ l → a.id = b.id → a = b := by
  intro l
  induction l with
  | nil => intro _ a b ha; cases ha
  | cons x t ih =>
    intro hnd a b ha hb hid
    obtain ⟨hhead, htail⟩ := List.nodup_cons.mp hnd
    rcases List.mem_cons.mp ha with rfl | hat
    · rcases List.mem_cons.mp hb with rfl | hbt
      · rfl
      · have hmem : a.id ∈ t.map (fun n => n.id) := by
          rw [hid]
          exact List.mem_map_of_mem (fun n => n.id) hbt
        exact absurd hmem hhead
    · rcases List.mem_cons.mp hb with rfl | hbt
      · have hmem : b.id ∈ t.map (fun n => n.id) := by
          rw [← hid]
          exact List.mem_map_of_mem (fun n => n.id) hat
        exact absurd hmem hhead
      · exact ih htail a b hat hbt hid

/-- Replacing the data of the (unique) vertex with `v`'s id changes the total
mass by `d.weight - v.data.weight`. -/
theorem sum_map_replace {Point : Type _} :
    ∀ (l : List (Node Point)) (v : Node Point) (d : NormalData Point),
    v ∈ l → (l.map (fun n => n.id)).Nodup →
    ((l.map (fun n => if n.id = v.id then { n with data := d } else n)).map
      (fun n => n.data.weight)).sum
      = (l.map (fun n => n.data.weight)).sum - v.data.weight + d.weight := by
  intro l
  induction l with
  | nil => intro v d hv; cases hv
  | cons a t ih =>
    intro v d hv hnd
    obtain ⟨hhead, htail⟩ := List.nodup_cons.mp hnd
    rcases List.mem_cons.mp hv with rfl | hvt
    · have hnotin : ∀ n ∈ t, ¬ n.id = v.id := by
        intro n hn hcon
        have hmem : v.id ∈ t.map (fun n => n.id) := by
          rw [← hcon]
          exact List.mem_map_of_mem (fun n => n.id) hn
        exact hhead hmem
      have htid : t.map (fun n => if n.id = v.id then { n with data := d } else n) = t := by
        rw [List.map_congr_left (fun n hn => if_neg (hnotin n hn))]
        exact List.map_id t
      simp only [List.map_cons, if_pos rfl, if_true, htid, List.sum_cons]
      ring
    · have hna : ¬ a.id = v.id := by
        intro hcon
        have hmem : a.id ∈ t.map (fun n => n.id) := by
          rw [hcon]
          exact List.mem_map_of_mem (fun n => n.id) hvt
        exact hhead hmem
      simp only [List.map_cons, if_neg hna, List.sum_cons, ih v d hvt htail]
      ring

/-- `Model.setData` accounting. -/
theorem totalMass_setData {Point : Type _} (m : Model Point) (v : Node Point)
    (d : NormalData Point) (hv : v ∈ m.graph)
    (hnd : (m.graph.map (fun n => n.id)).Nodup) :
    totalMass (m.setData v.id d) = totalMass m - v.data.weight + d.weight :=
  sum_map_replace m.graph v d hv hnd

/-- `Model.set_neighbors` does not change the total mass. -/
theorem totalMass_set_neighbors {Point : Type _} (m : Model Point) (i : ℕ)
    (l : List ℕ) : totalMass (m.set_neighbors i l) = totalMass m := by
  unfold totalMass Model.set_neighbors
  simp only [List.map_map]
  congr 1
  apply List.map_congr_left
  intro n _
  by_cases h : n.id = i <;> simp [h]

/-- `Model.setData` leaves the identity sequence untouched. -/
theorem setData_ids {Point : Type _} (m : Model Point) (i : ℕ)
    (d : NormalData Point) :
    (m.setData i d).graph.map (fun n => n.id) = m.graph.map (fun n => n.id) := by
  unfold Model.setData
  simp only [List.map_map]
  apply List.map_congr_left
  intro n _
  by_cases h : n.id = i <;> simp [h]

/-- `Model.set_neighbors` leaves the identity sequence untouched. -/
theorem set_neighbors_ids {Point : Type _} (m : Model Point) (i : ℕ)
    (l : List ℕ) :
    (m.set_neighbors i l).graph.map (fun n => n.id) = m.graph.map (fun n => n.id) := by
  unfold Model.set_neighbors
  simp only [List.map_map]
  apply List.map_congr_left
  intro n _
  by_cases h : n.id = i <;> simp [h]

/-- Vertices of a `setData` image come from vertices of the original graph,
with at most the data replaced. -/
theorem mem_setData {Point : Type _} (m : Model Point) (i : ℕ)
    (d : NormalData Point) (n : Node Point) (hn : n ∈ (m.setData i d).graph) :
    ∃ u ∈ m.graph, n = if u.id = i then { u with data := d } else u := by
  obtain ⟨u, hu, rfl⟩ := List.mem_map.mp hn
  exact ⟨u, hu, rfl⟩

/-- Live neighbors come from the graph. -/
theorem iter_neighbors_mem {Point : Type _} (m : Model Point) (v n : Node Point)
    (h : n ∈ m.iter_neighbors v) : n ∈ m.graph := by
  unfold Model.iter_neighbors at h
  obtain ⟨i, _, hfind⟩ := List.mem_filterMap.mp h
  exact List.mem_of_find?_eq_some hfind

/-- Every entry of the rebuilt neighbor buffer is an old entry or the
candidate. -/
theorem rebuild_aux_mem {Point : Type _} [DecidableEq Point] (algo : Algo Point)
    (cp : Point) (cd : ℚ) (cand : Node Point) :
    ∀ (fuel : ℕ) (pre rest : List (Node Point)) (n : Node Point),
    n ∈ rebuild_aux algo cp cd cand fuel pre rest → n ∈ pre ++ rest ∨ n = cand := by
  intro fuel
  induction fuel with
  | zero => intro pre rest n h; exact Or.inl h
  | succ f ih =>
    intro pre rest n h
    match rest with
    | [] =>
      rw [rebuild_aux] at h
      rcases List.mem_append.mp h with h | h
      · exact Or.inl (List.mem_append.mpr (Or.inl h))
      · simp only [List.mem_singleton] at h
        exact Or.inr h
    | x :: t =>
      rw [rebuild_aux] at h
      split_ifs at h with h1 h2
      · exact Or.inl h
      · rcases List.mem_append.mp h with hm | hm
        · exact Or.inl (List.mem_append.mpr (Or.inl hm))
        · rcases List.mem_cons.mp hm with rfl | hm2
          · exact Or.inr rfl
          · exact Or.inl (List.mem_append.mpr (Or.inr hm2))
      · rcases ih (pre ++ [x]) t n h with hm | hm
        · refine Or.inl ?_
          rcases List.mem_append.mp hm with hm2 | hm2
          · rcases List.mem_append.mp hm2 with hm3 | hm3
            · exact List.mem_append.mpr (Or.inl hm3)
            · simp only [List.mem_singleton] at hm3
              exact List.mem_append.mpr (Or.inr (hm3 ▸ List.mem_cons_self x t))
          · exact List.mem_append.mpr (Or.inr (List.mem_cons_of_mem x hm2))
        · exact Or.inr hm

/-- `merge_components` accounting and invariant preservation: the total mass
does not grow (it is conserved when the two vertices are distinct), masses
stay non-negative, and the identity sequence and allocator are untouched. -/
theorem merge_components_facts {Point : Type _} (algo : Algo Point)
    (m : Model Point) (v h : Node Point) (d : ℚ)
    (hv : v ∈ m.graph) (hh : h ∈ m.graph)
    (hnd : (m.graph.map (fun n => n.id)).Nodup)
    (h0 : ∀ n ∈ m.graph, 0 ≤ n.data.weight) :
    totalMass (algo.merge_components m v h d) ≤ totalMass m
    ∧ (∀ n ∈ (algo.merge_components m v h d).graph, 0 ≤ n.data.weight)
    ∧ (algo.merge_components m v h d).graph.map (fun n => n.id)
        = m.graph.map (fun n => n.id)
    ∧ (algo.merge_components m v h d).nextId = m.nextId := by
  have hv0 := h0 v hv
  have hh0 := h0 h hh
  refine ⟨?_, ?_, ?_, rfl⟩
  · simp only [Algo.merge_components]
    set merged : NormalData Point :=
      { mu := algo.combine v.data.mu v.data.weight h.data.mu h.data.weight
        sigma := Fx.qadd d
          (((v.data.sigma.mulq v.data.weight).add
            (h.data.sigma.mulq h.data.weight)).divq (v.data.weight + h.data.weight))
        weight := v.data.weight + h.data.weight } with hmerged
    have hmw : merged.weight = v.data.weight + h.data.weight := by rw [hmerged]
    have h1 := totalMass_setData m v merged hv hnd
    have hnd2 : ((m.setData v.id merged).graph.map (fun n => n.id)).Nodup := by
      rw [setData_ids]
      exact hnd
    by_cases hid : h.id = v.id
    · have hveq : h = v := mem_id_unique m.graph hnd h v hh hv hid
      subst hveq
      have hmem2 : ({ h with data := merged } : Node Point) ∈ (m.setData h.id merged).graph := by
        refine List.mem_map.mpr ⟨h, hv, ?_⟩
        show (if h.id = h.id then ({ h with data := merged } : Node Point) else h)
            = { h with data := merged }
        rw [if_pos rfl]
      have h2 := totalMass_setData (m.setData h.id merged)
        ({ h with data := merged } : Node Point) { h.data with weight := 0 } hmem2 hnd2
      have h2b : totalMass ((m.setData h.id merged).setData h.id { h.data with weight := 0 })
          = totalMass (m.setData h.id merged) - merged.weight + 0 := h2
      rw [h2b, h1]
      have hz : (0 : ℚ) ≤ h.data.weight := hh0
      rw [hmw]
      linarith
    · have hmem2 : h ∈ (m.setData v.id merged).graph := by
        refine List.mem_map.mpr ⟨h, hh, ?_⟩
        show (if h.id = v.id then ({ h with data := merged } : Node Point) else h) = h
        rw [if_neg hid]
      have h2 := totalMass_setData (m.setData v.id merged) h { h.data with weight := 0 }
        hmem2 hnd2
      have h2b : totalMass ((m.setData v.id merged).setData h.id { h.data with weight := 0 })
          = totalMass (m.setData v.id merged) - h.data.weight + 0 := h2
      rw [h2b, h1, hmw]
      linarith
  · intro n hn
    obtain ⟨u, hu, rfl⟩ := mem_setData _ _ _ n hn
    obtain ⟨w, hw, rfl⟩ := mem_setData _ _ _ u hu
    have hw0 := h0 w hw
    split_ifs <;> simp <;> linarith
  · show ((m.setData v.id _).setData h.id _).graph.map (fun n => n.id) = _
    rw [setData_ids, setData_ids]

/-- `set_neighbors` leaves every vertex's ball unchanged. -/
theorem mem_set_neighbors_data {Point : Type _} (m : Model Point) (i : ℕ)
    (l : List ℕ) (n : Node Point) (hn : n ∈ (m.set_neighbors i l).graph) :
    ∃ u ∈ m.graph, n.data = u.data := by
  obtain ⟨u, hu, rfl⟩ := List.mem_map.mp hn
  refine ⟨u, hu, ?_⟩
  by_cases h : u.id = i <;> simp [h]

/-- Dropping list entries cannot increase a sum of non-negative masses. -/
theorem sum_filter_weight_le {Point : Type _} (l : List (Node Point))
    (p : Node Point → Bool) (h0 : ∀ n ∈ l, 0 ≤ n.data.weight) :
    ((l.filter p).map (fun n => n.data.weight)).sum
      ≤ (l.map (fun n => n.data.weight)).sum := by
  induction l with
  | nil => simp
  | cons a t ih =>
    have ha0 := h0 a (List.mem_cons_self a t)
    have iht := ih (fun n hn => h0 n (List.mem_cons_of_mem a hn))
    rw [List.filter_cons]
    by_cases hp : p a = true
    · simp only [hp, if_true, List.map_cons, List.sum_cons]
      linarith
    · simp only [hp, Bool.false_eq_true, if_false, List.map_cons, List.sum_cons]
      linarith

/-- The invariant transfers along any graph rewrite that keeps the identity
sequence inside the original one, keeps masses non-negative and does not move
the allocator. -/
theorem modelInv_of_ids_sublist {Point : Type _} (m m2 : Model Point)
    (hInv : ModelInv m)
    (hsub : (m2.graph.map (fun n => n.id)).Sublist (m.graph.map (fun n => n.id)))
    (h0 : ∀ n ∈ m2.graph, 0 ≤ n.data.weight) (hnext : m2.nextId = m.nextId) :
    ModelInv m2 := by
  obtain ⟨_, hnd, hb⟩ := hInv
  refine ⟨h0, hnd.sublist hsub, ?_⟩
  intro n hn
  have hid : n.id ∈ m.graph.map (fun n => n.id) :=
    hsub.mem (List.mem_map_of_mem (fun n => n.id) hn)
  obtain ⟨w, hw, hwid⟩ := List.mem_map.mp hid
  rw [hnext, ← hwid]
  exact hb w hw

/-- `Algo.decay` accounting and invariant facts. -/
theorem decay_facts {Point : Type _} (m : Model Point) (vId : ℕ)
    (h0 : ∀ n ∈ m.graph, 0 ≤ n.data.weight) :
    totalMass (Algo.decay m vId) ≤ totalMass m
    ∧ (∀ n ∈ (Algo.decay m vId).graph, 0 ≤ n.data.weight)
    ∧ ((Algo.decay m vId).graph.map (fun n => n.id)).Sublist
        (m.graph.map (fun n => n.id))
    ∧ (Algo.decay m vId).nextId = m.nextId := by
  have hDF0 : (0 : ℚ) < DECAY_FACTOR := by norm_num [DECAY_FACTOR]
  have hDF1 : DECAY_FACTOR ≤ (1 : ℚ) := by norm_num [DECAY_FACTOR]
  set G : Node Point → Node Point := fun n =>
    if n.id = vId then n
    else { n with data := { n.data with weight := n.data.weight * DECAY_FACTOR } } with hGdef
  have hGw : ∀ n ∈ m.graph,
      0 ≤ (G n).data.weight ∧ (G n).data.weight ≤ n.data.weight ∧ (G n).id = n.id := by
    intro n hn
    have hw := h0 n hn
    by_cases hid : n.id = vId
    · refine ⟨?_, ?_, ?_⟩ <;> simp only [hGdef, hid, if_true]
      · exact hw
      · exact le_refl _
    · refine ⟨?_, ?_, ?_⟩ <;> simp only [hGdef, hid, if_false]
      · exact mul_nonneg hw (le_of_lt hDF0)
      · nlinarith
  have hmap0 : ∀ n ∈ m.graph.map G, 0 ≤ n.data.weight := by
    intro n hn
    obtain ⟨u, hu, rfl⟩ := List.mem_map.mp hn
    exact (hGw u hu).1
  refine ⟨?_, ?_, ?_, rfl⟩
  · show totalMass _ ≤ totalMass m
    unfold totalMass
    rw [decay_graph_eq]
    calc (((m.graph.map G).filter
            (fun n => decide (DECAY_THRESHOLD < n.data.weight))).map
              (fun n => n.data.weight)).sum
        ≤ ((m.graph.map G).map (fun n => n.data.weight)).sum :=
          sum_filter_weight_le _ _ hmap0
      _ = (m.graph.map (fun n => (G n).data.weight)).sum := by rw [List.map_map]; rfl
      _ ≤ (m.graph.map (fun n => n.data.weight)).sum :=
          List.sum_le_sum (fun n hn => (hGw n hn).2.1)
  · intro n hn
    rw [decay_graph_eq] at hn
    exact hmap0 n (List.mem_of_mem_filter hn)
  · rw [decay_graph_eq]
    have h1 : (((m.graph.map G).filter
        (fun n => decide (DECAY_THRESHOLD < n.data.weight))).map (fun n => n.id)).Sublist
        ((m.graph.map G).map (fun n => n.id)) :=
      (List.filter_sublist _).map _
    have h2 : (m.graph.map G).map (fun n => n.id) = m.graph.map (fun n => n.id) := by
      rw [List.map_map]
      exact List.map_congr_left (fun n hn => (hGw n hn).2.2)
    rw [h2] at h1
    exact h1

/-- `update_local_graph` accounting and invariant facts: the committed model
carries at most the original total mass with non-negative masses, the same
identity sequence and the same allocator. -/
theorem update_local_graph_facts {Point : Type _} [DecidableEq Point]
    (algo : Algo Point) (m : Model Point) (vId cId : ℕ)
    (hnd : (m.graph.map (fun n => n.id)).Nodup)
    (h0 : ∀ n ∈ m.graph, 0 ≤ n.data.weight) :
    totalMass (algo.update_local_graph m vId cId) ≤ totalMass m
    ∧ (∀ n ∈ (algo.update_local_graph m vId cId).graph, 0 ≤ n.data.weight)
    ∧ (algo.update_local_graph m vId cId).graph.map (fun n => n.id)
        = m.graph.map (fun n => n.id)
    ∧ (algo.update_local_graph m vId cId).nextId = m.nextId := by
  have hcommit : ∀ (M : Model Point) (l : List ℕ),
      totalMass M ≤ totalMass m →
      (∀ n ∈ M.graph, 0 ≤ n.data.weight) →
      M.graph.map (fun n => n.id) = m.graph.map (fun n => n.id) →
      M.nextId = m.nextId →
      totalMass (M.set_neighbors vId l) ≤ totalMass m
      ∧ (∀ n ∈ (M.set_neighbors vId l).graph, 0 ≤ n.data.weight)
      ∧ (M.set_neighbors vId l).graph.map (fun n => n.id)
          = m.graph.map (fun n => n.id)
      ∧ (M.set_neighbors vId l).nextId = m.nextId := by
    intro M l h1 h2 h3 h4
    refine ⟨?_, ?_, ?_, ?_⟩
    · rw [totalMass_set_neighbors]
      exact h1
    · intro n hn
      obtain ⟨u, hu, hud⟩ := mem_set_neighbors_data M vId l n hn
      rw [hud]
      exact h2 u hu
    · rw [set_neighbors_ids]
      exact h3
    · exact h4
  unfold Algo.update_local_graph
  rcases hfv : m.graph.find? (fun n => n.id = vId) with _ | v
  · rw [hfv]
    exact ⟨le_refl _, h0, rfl, rfl⟩
  rcases hfc : m.graph.find? (fun n => n.id = cId) with _ | c
  · rw [hfv, hfc]
    exact ⟨le_refl _, h0, rfl, rfl⟩
  rw [hfv, hfc]
  have hvm : v ∈ m.graph := List.mem_of_find?_eq_some hfv
  have hcm : c ∈ m.graph := List.mem_of_find?_eq_some hfc
  have hmerge : totalMass (algo.rebuild_merge m v
        (algo.rebuild_neighborhood v.data.mu (m.iter_neighbors v) c)).1 ≤ totalMass m
      ∧ (∀ n ∈ (algo.rebuild_merge m v
          (algo.rebuild_neighborhood v.data.mu (m.iter_neighbors v) c)).1.graph,
            0 ≤ n.data.weight)
      ∧ (algo.rebuild_merge m v
          (algo.rebuild_neighborhood v.data.mu (m.iter_neighbors v) c)).1.graph.map
            (fun n => n.id) = m.graph.map (fun n => n.id)
      ∧ (algo.rebuild_merge m v
          (algo.rebuild_neighborhood v.data.mu (m.iter_neighbors v) c)).1.nextId
            = m.nextId := by
    rcases hnl : algo.rebuild_neighborhood v.data.mu (m.iter_neighbors v) c
        with _ | ⟨hd, tl⟩
    · exact ⟨le_refl _, h0, rfl, rfl⟩
    · have hhd : hd ∈ m.graph := by
        have hmem : hd ∈ algo.rebuild_neighborhood v.data.mu (m.iter_neighbors v) c := by
          rw [hnl]
          exact List.mem_cons_self hd tl
        rw [Algo.rebuild_neighborhood] at hmem
        rcases rebuild_aux_mem algo v.data.mu (algo.dist c.data.mu v.data.mu) c
            MAX_NEIGHBORS [] (m.iter_neighbors v) hd hmem with hm | hm
        · exact iter_neighbors_mem m v hd (by simpa using hm)
        · rw [hm]
          exact hcm
      simp only [Algo.rebuild_merge]
      by_cases hsm : (algo.should_merge v hd).1 = true
      · rw [if_pos hsm]
        exact merge_components_facts algo m v hd (algo.should_merge v hd).2 hvm hhd hnd h0
      · rw [if_neg hsm]
        exact ⟨le_refl _, h0, rfl, rfl⟩
  obtain ⟨h1, h2, h3, h4⟩ := hmerge
  exact hcommit _ _ h1 h2 h3 h4

/-- `Model.setData` preserves the invariant when the new ball's mass is
non-negative, and accounts the total mass exactly. -/
theorem setData_facts {Point : Type _} (m : Model Point) (v : Node Point)
    (d : NormalData Point) (hvm : v ∈ m.graph) (hInv : ModelInv m)
    (hd0 : 0 ≤ d.weight) :
    totalMass (m.setData v.id d) = totalMass m - v.data.weight + d.weight
    ∧ ModelInv (m.setData v.id d) := by
  obtain ⟨h0, hnd, hb⟩ := hInv
  refine ⟨totalMass_setData m v d hvm hnd, ?_, ?_, ?_⟩
  · intro n hn
    obtain ⟨u, hu, hud⟩ := mem_setData m v.id d n hn
    rw [hud]
    by_cases h : u.id = v.id
    · rw [if_pos h]
      exact hd0
    · rw [if_neg h]
      exact h0 u hu
  · rw [setData_ids]
    exact hnd
  · intro n hn
    obtain ⟨u, hu, hud⟩ := mem_setData m v.id d n hn
    have hid : n.id = u.id := by
      rw [hud]
      by_cases h : u.id = v.id <;> simp [h]
    rw [hid]
    exact hb u hu

/-- `Model.add_component` preserves the invariant when the new ball's mass is
non-negative, and adds exactly that mass to the total. -/
theorem add_component_facts {Point : Type _} (m : Model Point)
    (d : NormalData Point) (nbrs : List ℕ) (hInv : ModelInv m)
    (hd0 : 0 ≤ d.weight) :
    totalMass (m.add_component d nbrs).2 = totalMass m + d.weight
    ∧ ModelInv (m.add_component d nbrs).2 := by
  obtain ⟨h0, hnd, hb⟩ := hInv
  refine ⟨?_, ?_, ?_, ?_⟩
  · show ((m.graph ++ [(⟨m.nextId, d, nbrs⟩ : Node Point)]).map (fun n => n.data.weight)).sum
      = totalMass m + d.weight
    rw [List.map_append, List.sum_append]
    simp [totalMass]
  · intro n hn
    rcases List.mem_append.mp hn with h | h
    · exact h0 n h
    · simp only [List.mem_singleton] at h
      rw [h]
      exact hd0
  · show ((m.graph ++ [(⟨m.nextId, d, nbrs⟩ : Node Point)]).map (fun n => n.id)).Nodup
    rw [List.map_append, List.nodup_append]
    refine ⟨hnd, List.nodup_singleton _, ?_⟩
    intro a ha hb2
    simp only [List.map_cons, List.map_nil, List.mem_singleton] at hb2
    obtain ⟨u, hu, hua⟩ := List.mem_map.mp ha
    have := hb u hu
    omega
  · intro n hn
    rcases List.mem_append.mp hn with h | h
    · have := hb n h
      show n.id < m.nextId + 1
      omega
    · simp only [List.mem_singleton] at h
      rw [h]
      show m.nextId < m.nextId + 1
      omega

/-- `Algo.update` accounting and invariant facts: both branches add exactly
one unit of mass and preserve the invariant. -/
theorem update_facts {Point : Type _} (algo : Algo Point) (m : Model Point)
    (vertex : Node Point) (p : Point) (nb : List (Node Point))
    (hvm : vertex ∈ m.graph) (hInv : ModelInv m) :
    totalMass (algo.update m vertex p nb).1 = totalMass m + 1
    ∧ ModelInv (algo.update m vertex p nb).1 := by
  have hv0 := hInv.1 vertex hvm
  simp only [Algo.update]
  by_cases hgate : Fx.qlt (algo.dist vertex.data.mu p)
      (Fx.qmul INTRA_THRESHOLD vertex.data.sigma) = true
  · rw [if_pos hgate]
    dsimp only
    have hsd := setData_facts m vertex
      (algo.update_component vertex.data p (algo.dist vertex.data.mu p)) hvm hInv
      (by show (0:ℚ) ≤ vertex.data.weight + 1; linarith)
    refine ⟨?_, hsd.2⟩
    rw [hsd.1]
    have hw : (algo.update_component vertex.data p
        (algo.dist vertex.data.mu p)).weight = vertex.data.weight + 1 := rfl
    rw [hw]
    ring
  · rw [if_neg hgate]
    dsimp only
    have had := add_component_facts m
      (algo.split_component p (algo.dist vertex.data.mu p) vertex.data)
      (nb.map (fun v => v.id)) hInv (by show (0:ℚ) ≤ 1; norm_num)
    refine ⟨?_, had.2⟩
    rw [had.1]
    have hw : (algo.split_component p (algo.dist vertex.data.mu p)
        vertex.data).weight = 1 := rfl
    rw [hw]

/-- One `Algo.fit` call adds at most one unit of total mass and preserves the
arena invariant. -/
theorem fit_facts {Point : Type _} [DecidableEq Point] (algo : Algo Point)
    (sd : Point → Point → ℚ) (m : Model Point) (p : Point) (hInv : ModelInv m) :
    totalMass (algo.fit sd m p) ≤ totalMass m + 1
    ∧ ModelInv (algo.fit sd m p) := by
  simp only [Algo.fit]
  rcases hgn : m.get_neighborhood sd p with _ | ⟨primary, rest⟩
  · have had := add_component_facts m ⟨p, Fx.inf, 0⟩ [] hInv
      (by show (0:ℚ) ≤ 0; norm_num)
    refine ⟨?_, had.2⟩
    show totalMass (m.add_component ⟨p, Fx.inf, 0⟩ []).2 ≤ totalMass m + 1
    rw [had.1]
    have hz : ((⟨p, Fx.inf, 0⟩ : NormalData Point)).weight = 0 := rfl
    rw [hz]
    linarith
  · have hpm : primary ∈ m.graph := model_get_neighborhood_mem m sd p primary
      (by rw [hgn]; exact List.mem_cons_self primary rest)
    have hup := update_facts algo m primary p (primary :: rest) hpm hInv
    have hpd : totalMass (algo.preDecay m p primary rest).1 ≤ totalMass m + 1
        ∧ ModelInv (algo.preDecay m p primary rest).1 := by
      simp only [Algo.preDecay]
      rcases hc : (algo.update m primary p (primary :: rest)).2.2 with _ | c
      · exact ⟨le_of_eq hup.1, hup.2⟩
      · obtain ⟨hnn, hnd2, hb2⟩ := hup.2
        have hulg := update_local_graph_facts algo
          (algo.update m primary p (primary :: rest)).1 primary.id c hnd2 hnn
        refine ⟨?_, ?_⟩
        · show totalMass (algo.update_local_graph
            (algo.update m primary p (primary :: rest)).1 primary.id c) ≤ totalMass m + 1
          calc totalMass (algo.update_local_graph
                (algo.update m primary p (primary :: rest)).1 primary.id c)
              ≤ totalMass (algo.update m primary p (primary :: rest)).1 := hulg.1
            _ = totalMass m + 1 := hup.1
        · refine modelInv_of_ids_sublist _ _ ⟨hnn, hnd2, hb2⟩ ?_ hulg.2.1 hulg.2.2.2
          rw [hulg.2.2.1]
    obtain ⟨hpt, hpInv⟩ := hpd
    obtain ⟨hp0, hpnd, hpb⟩ := hpInv
    have hdec := decay_facts (algo.preDecay m p primary rest).1
      (algo.preDecay m p primary rest).2 hp0
    exact ⟨le_trans hdec.1 hpt,
      modelInv_of_ids_sublist _ _ ⟨hp0, hpnd, hpb⟩ hdec.2.2.1 hdec.2.1 hdec.2.2.2⟩

/-- C7: for every sequence of points fit into an initially empty model, the
sum of the masses of all live balls is at least 0 and at most the number of
points fit so far (over exact rationals; every intermediate step is the
instance of this statement at the corresponding prefix). -/
theorem total_mass_bounded {Point : Type _} [DecidableEq Point]
    (algo : Algo Point) (sd : Point → Point → ℚ) (pts : List Point) :
    0 ≤ totalMass (pts.foldl (fun mm q => algo.fit sd mm q) Model.empty)
    ∧ totalMass (pts.foldl (fun mm q => algo.fit sd mm q) Model.empty)
      ≤ (pts.length : ℚ) := by
  have main : ∀ (l : List Point) (m : Model Point), ModelInv m →
      ModelInv (l.foldl (fun mm q => algo.fit sd mm q) m)
      ∧ totalMass (l.foldl (fun mm q => algo.fit sd mm q) m)
        ≤ totalMass m + (l.length : ℚ) := by
    intro l
    induction l with
    | nil =>
      intro m hm
      refine ⟨hm, ?_⟩
      simp
    | cons a t ih =>
      intro m hm
      have hf := fit_facts algo sd m a hm
      have ht := ih (algo.fit sd m a) hf.2
      refine ⟨ht.1, ?_⟩
      simp only [List.foldl_cons, List.length_cons]
      have h1 := ht.2
      have h2 := hf.1
      push_cast
      push_cast at h1
      linarith
  have hEmptyInv : ModelInv (Model.empty : Model Point) := by
    refine ⟨?_, ?_, ?_⟩
    · intro n hn
      exact absurd hn (List.not_mem_nil n)
    · simp [Model.empty]
    · intro n hn
      exact absurd hn (List.not_mem_nil n)
  have h := main pts Model.empty hEmptyInv
  have h0 : totalMass (Model.empty : Model Point) = 0 := rfl
  refine ⟨totalMass_nonneg _ h.1.1, ?_⟩
  have h2 := h.2
  rw [h0] at h2
  linarith
